import Mathlib

/-!
# Verification of the chain2 block-validation and active-chain engine

A shallow embedding, in Lean 4, of the parts of the chain2 full node that the
specification's checked claims speak about: compact-target proof-of-work
arithmetic (`src/src/pow.cpp`), the candidate-tip ordering
(`CBlockIndexWorkComparator`, `src/src/main.cpp`), the reorg engine
(`FindMostWorkChain`, `PruneBlockIndexCandidates`, `ActivateBestChainStep`,
`ActivateBestChain`), header and block acceptance (`AcceptBlockHeader`,
`ContextualCheckBlockHeader`, `AcceptBlock`), invalid-block bookkeeping
(`InvalidBlockFound`), block-download selection (`FindNextBlocksToDownload`)
and the fork-boundary mempool clearer (`src/src/utilfork.cpp`).

Machine integers are embedded as `Nat` with explicit reductions modulo `2^256`
where the 256-bit arithmetic wraps; pointers become arena identifiers or
structural references; side effects become explicit state passing; fallible
code returns `Option` or a result inductive.  Functions of the repository that
are only declared (their translation unit is not part of the sources at hand)
are modelled from the specification and marked `Modelled from the spec:` in
their doc comment.
-/

/-! ## Proof-of-work arithmetic (src/src/pow.cpp)

`arith_uint256` is a 256-bit unsigned integer; we embed its values as `Nat`
and reduce modulo `2 ^ 256` exactly where the C++ arithmetic wraps. -/

namespace Pow

/-- The modulus of 256-bit unsigned arithmetic. -/
def W256 : Nat := 2 ^ 256

/-- Result of decoding a compact-encoded target: the stored 256-bit value and
the negative/overflow flags. -/
structure Compact where
  target : Nat
  negative : Bool
  overflow : Bool
deriving Repr, DecidableEq

/-- The exponent byte of a compact encoding. -/
def compactSize (nCompact : Nat) : Nat := nCompact >>> 24

/-- The 23-bit mantissa of a compact encoding. -/
def compactWord (nCompact : Nat) : Nat := nCompact &&& 0x007fffff

/-- Modelled from the spec: `arith_uint256::SetCompact` is declared via
`arith_uint256.h` but its translation unit is not among the sources at hand.
The spec's glossary calls the compact target "a 32-bit floating-point-like
encoding of a 256-bit threshold" (round-tripping per invariant I6); this is the
standard encoding: high byte is a base-256 exponent, low 23 bits the mantissa,
bit 23 the sign; the stored value wraps modulo `2 ^ 256`. -/
def setCompact (nCompact : Nat) : Compact :=
  { target :=
      if compactSize nCompact ≤ 3 then
        compactWord nCompact >>> (8 * (3 - compactSize nCompact))
      else
        (compactWord nCompact <<< (8 * (compactSize nCompact - 3))) % W256
    negative := decide (compactWord nCompact ≠ 0 ∧ nCompact &&& 0x00800000 ≠ 0)
    overflow := decide (compactWord nCompact ≠ 0 ∧
      (compactSize nCompact > 34 ∨
        (compactWord nCompact > 0xff ∧ compactSize nCompact > 33) ∨
        (compactWord nCompact > 0xffff ∧ compactSize nCompact > 32))) }

/-- `CheckProofOfWork` (src/src/pow.cpp, the three-argument variant): decode
`nBits`; reject a negative, zero or overflowing target or one exceeding
`powLimit`; then require the hash, as a 256-bit integer, to be at most the
target. -/
def checkProofOfWork (hash : Nat) (nBits : Nat) (powLimit : Nat) : Bool :=
  if (setCompact nBits).negative = true ∨ (setCompact nBits).target = 0 ∨
      (setCompact nBits).overflow = true ∨ (setCompact nBits).target > powLimit then
    false
  else if hash > (setCompact nBits).target then
    false
  else
    true

/-- `GetBlockProof` (src/src/pow.cpp): `~target / (target + 1) + 1` in 256-bit
arithmetic, or `0` if the compact decoding is negative, overflowing or zero.
The bitwise complement of a 256-bit value `t` is `2 ^ 256 - 1 - t`. -/
def getBlockProof (nBits : Nat) : Nat :=
  if (setCompact nBits).negative = true ∨ (setCompact nBits).overflow = true ∨
      (setCompact nBits).target = 0 then 0
  else ((W256 - 1 - (setCompact nBits).target) / ((setCompact nBits).target + 1) + 1) % W256

/-- A compact decoding whose overflow flag is clear stores a value bounded by
`2 ^ 256 - 2 ^ 240`; in particular adding one to it cannot wrap. -/
theorem setCompact_target_le (nBits : Nat)
    (hovf : (setCompact nBits).overflow = false) :
    (setCompact nBits).target ≤ W256 - 2 ^ 240 := by
  have hword : compactWord nBits ≤ 0x007fffff := Nat.and_le_right
  simp only [setCompact, decide_eq_false_iff_not, not_and, not_or, not_lt] at hovf ⊢
  split
  · have hbound : (0x007fffff : Nat) ≤ W256 - 2 ^ 240 := by norm_num [W256]
    refine le_trans ?_ hbound
    rw [Nat.shiftRight_eq_div_pow]
    exact le_trans (Nat.div_le_self _ _) hword
  · refine le_trans (Nat.mod_le _ _) ?_
    rw [Nat.shiftLeft_eq]
    by_cases hz : compactWord nBits = 0
    · rw [hz, Nat.zero_mul]
      exact Nat.zero_le _
    · obtain ⟨h34, h33, h32⟩ := hovf hz
      rcases Nat.lt_or_ge 0xffff (compactWord nBits) with hbig2 | hsmall2
      · have hs : compactSize nBits ≤ 32 := h32 hbig2
        calc compactWord nBits * 2 ^ (8 * (compactSize nBits - 3))
            ≤ 0x007fffff * 2 ^ (8 * 29) :=
              Nat.mul_le_mul hword (Nat.pow_le_pow_right (by norm_num) (by omega))
          _ ≤ W256 - 2 ^ 240 := by norm_num [W256]
      · rcases Nat.lt_or_ge 0xff (compactWord nBits) with hbig | hsmall
        · have hs : compactSize nBits ≤ 33 := h33 hbig
          calc compactWord nBits * 2 ^ (8 * (compactSize nBits - 3))
              ≤ 0xffff * 2 ^ (8 * 30) :=
                Nat.mul_le_mul hsmall2 (Nat.pow_le_pow_right (by norm_num) (by omega))
            _ ≤ W256 - 2 ^ 240 := by norm_num [W256]
        · have hs : compactSize nBits ≤ 34 := h34
          calc compactWord nBits * 2 ^ (8 * (compactSize nBits - 3))
              ≤ 0xff * 2 ^ (8 * 31) :=
                Nat.mul_le_mul hsmall (Nat.pow_le_pow_right (by norm_num) (by omega))
            _ ≤ W256 - 2 ^ 240 := by norm_num [W256]

/-- C7: `check_pow` (CheckProofOfWork, src/src/pow.cpp lines 110–127) decodes
`bits` as a compact 256-bit target and fails if and only if the decoded target
is negative, zero, or overflowing, or exceeds `pow_limit`, or the block hash
interpreted as an unsigned 256-bit integer is strictly greater than the target;
in all other cases it succeeds. -/
theorem checkProofOfWork_fails_iff (hash nBits powLimit : Nat) :
    checkProofOfWork hash nBits powLimit = false ↔
      ((setCompact nBits).negative = true ∨ (setCompact nBits).target = 0 ∨
        (setCompact nBits).overflow = true ∨ powLimit < (setCompact nBits).target ∨
        (setCompact nBits).target < hash) := by
  unfold checkProofOfWork
  split_ifs with h1 h2
  · simp only [eq_self_iff_true, true_iff]
    rcases h1 with h | h | h | h
    · exact Or.inl h
    · exact Or.inr (Or.inl h)
    · exact Or.inr (Or.inr (Or.inl h))
    · exact Or.inr (Or.inr (Or.inr (Or.inl h)))
  · simp only [eq_self_iff_true, true_iff]
    exact Or.inr (Or.inr (Or.inr (Or.inr h2)))
  · simp only [not_or, not_lt] at h1 h2
    obtain ⟨hn, hz, ho, hl⟩ := h1
    constructor
    · intro hf
      simp at hf
    · rintro (h | h | h | h | h)
      · exact absurd h hn
      · exact absurd h hz
      · exact absurd h ho
      · omega
      · omega

/-- C8: for every `nBits` whose compact decoding yields a valid (non-negative,
non-overflowing, nonzero) target `t`, `GetBlockProof` (src/src/pow.cpp lines
129–142) returns exactly `⌊(~t)/(t+1)⌋ + 1`, computed in 256-bit unsigned
arithmetic without overflow (the complement of `t` being `2^256 - 1 - t`),
and this value equals `⌊2^256/(t+1)⌋`. -/
theorem getBlockProof_eq (nBits : Nat)
    (hneg : (setCompact nBits).negative = false)
    (hovf : (setCompact nBits).overflow = false)
    (hz : (setCompact nBits).target ≠ 0) :
    getBlockProof nBits =
        (W256 - 1 - (setCompact nBits).target) / ((setCompact nBits).target + 1) + 1 ∧
      (W256 - 1 - (setCompact nBits).target) / ((setCompact nBits).target + 1) + 1 < W256 ∧
      getBlockProof nBits = W256 / ((setCompact nBits).target + 1) := by
  have hle := setCompact_target_le nBits hovf
  set t := (setCompact nBits).target with ht
  have htpos : 0 < t := Nat.pos_of_ne_zero hz
  have hw : (2 : Nat) ^ 240 ≤ W256 := by norm_num [W256]
  have hlt : t < W256 - 1 := by
    have : (2 : Nat) ^ 240 > 1 := by norm_num
    omega
  -- the quotient-plus-one form equals the full 2^256 division
  have hdiv : (W256 - 1 - t) / (t + 1) + 1 = W256 / (t + 1) := by
    have hsum : (W256 - 1 - t) + (t + 1) = W256 := by omega
    calc (W256 - 1 - t) / (t + 1) + 1
        = ((W256 - 1 - t) + (t + 1)) / (t + 1) :=
          (Nat.add_div_right _ (by omega)).symm
      _ = W256 / (t + 1) := by rw [hsum]
  have hbound : W256 / (t + 1) < W256 := by
    have h2 : 2 ≤ t + 1 := by omega
    have hmono : W256 / (t + 1) ≤ W256 / 2 := Nat.div_le_div_left h2 (by omega)
    have hhalf : W256 / 2 < W256 := Nat.div_lt_self (by norm_num [W256]) (by omega)
    omega
  have hmain : getBlockProof nBits = (W256 - 1 - t) / (t + 1) + 1 := by
    unfold getBlockProof
    rw [← ht]
    simp only [hneg, hovf]
    split
    · rename_i hcon
      rcases hcon with hcon | hcon | hcon <;> simp_all
    · exact Nat.mod_eq_of_lt (by omega)
  exact ⟨hmain, by omega, by rw [hmain, hdiv]⟩

/-- Witness for C8: the mainnet genesis difficulty `0x1d00ffff` decodes to a
valid target, and `GetBlockProof` on it computes `⌊2^256/(t+1)⌋`. -/
theorem getBlockProof_eq_witness :
    (setCompact 0x1d00ffff).negative = false ∧
      (setCompact 0x1d00ffff).overflow = false ∧
      (setCompact 0x1d00ffff).target ≠ 0 ∧
      getBlockProof 0x1d00ffff = W256 / ((setCompact 0x1d00ffff).target + 1) :=
  ⟨by decide, by decide, by decide,
    (getBlockProof_eq 0x1d00ffff (by decide) (by decide) (by decide)).2.2⟩

end Pow

/-! ## The candidate-tip ordering (CBlockIndexWorkComparator, src/src/main.cpp)

`CBlockIndexWorkComparator::operator()` reads, of each `CBlockIndex*`, only the
parent pointer's `nChainWork`, the entry's `nSequenceId`, and the pointer value
itself.  We embed an entry as the record of those observations: `ident` stands
for the pointer value (the address tiebreak becomes a comparison of
identifiers), `prevChainWork` is `pprev->nChainWork` or `none` for a null
`pprev`, and the entry's own `nChainWork` is carried along to express that the
order never consults it. -/

namespace Cmp

/-- The fields of a block-index entry observed by the comparator, plus the
entry's own cumulative work (which the comparator must not consult). -/
structure CBlockIndexRef where
  ident : Nat
  nChainWork : Nat
  prevChainWork : Option Nat
  nSequenceId : Nat
deriving Repr, DecidableEq

/-- The `nParentChainWork` lambda of the comparator: a null entry or a null
parent contributes zero, otherwise the parent's `nChainWork`. -/
def nParentChainWork (i : CBlockIndexRef) : Nat := i.prevChainWork.getD 0

/-- `CBlockIndexWorkComparator::operator()` (src/src/main.cpp lines 120–143):
sort first by most parent chain work, then by earliest sequence id, then by
pointer value; identical entries compare false. `cBlockIndexWorkComparator a b
= true` means `a` sorts before `b`, i.e. `b` ranks higher. -/
def cBlockIndexWorkComparator (pa pb : CBlockIndexRef) : Bool :=
  if nParentChainWork pa > nParentChainWork pb then false
  else if nParentChainWork pa < nParentChainWork pb then true
  else if pa.nSequenceId < pb.nSequenceId then false
  else if pa.nSequenceId > pb.nSequenceId then true
  else if pa.ident < pb.ident then false
  else if pa.ident > pb.ident then true
  else false

/-- The comparator as a lexicographic predicate over the three keys. -/
theorem comparator_eq_true_iff (pa pb : CBlockIndexRef) :
    cBlockIndexWorkComparator pa pb = true ↔
      (nParentChainWork pa < nParentChainWork pb ∨
        (nParentChainWork pa = nParentChainWork pb ∧
          (pb.nSequenceId < pa.nSequenceId ∨
            (pa.nSequenceId = pb.nSequenceId ∧ pb.ident < pa.ident)))) := by
  unfold cBlockIndexWorkComparator
  split_ifs <;> simp <;> omega

/-- The comparator never ranks an entry strictly before itself. -/
theorem comparator_irrefl (a : CBlockIndexRef) :
    cBlockIndexWorkComparator a a = false := by
  unfold cBlockIndexWorkComparator
  split_ifs <;> simp_all

/-- The comparator is asymmetric. -/
theorem comparator_asymm {a b : CBlockIndexRef}
    (h : cBlockIndexWorkComparator a b = true) :
    cBlockIndexWorkComparator b a = false := by
  rw [comparator_eq_true_iff] at h
  cases hba : cBlockIndexWorkComparator b a with
  | false => rfl
  | true =>
    have hba' := (comparator_eq_true_iff b a).mp hba
    omega

/-- The comparator is transitive. -/
theorem comparator_trans {a b c : CBlockIndexRef}
    (hab : cBlockIndexWorkComparator a b = true)
    (hbc : cBlockIndexWorkComparator b c = true) :
    cBlockIndexWorkComparator a c = true := by
  rw [comparator_eq_true_iff] at hab hbc ⊢
  omega

/-- Entries with distinct identifiers are strictly ordered one way or the
other. -/
theorem comparator_total {a b : CBlockIndexRef} (h : a.ident ≠ b.ident) :
    cBlockIndexWorkComparator a b = true ∨ cBlockIndexWorkComparator b a = true := by
  rw [comparator_eq_true_iff, comparator_eq_true_iff]
  omega

/-- C2: `CBlockIndexWorkComparator` orders any two block index entries as a
total order keyed highest-first by the parent's cumulative chain work (not the
entry's own chain work), then by `sequence_id` ascending so that of two entries
with equal parent chain work the one with the smaller `sequence_id` ranks
higher, then by a deterministic pointer tiebreak; no entry ranks above itself.
Here "`b` ranks higher than `a`" is `cBlockIndexWorkComparator a b = true`. -/
theorem cBlockIndexWorkComparator_spec :
    (∀ a : CBlockIndexRef, cBlockIndexWorkComparator a a = false) ∧
      (∀ a b : CBlockIndexRef,
        ¬(cBlockIndexWorkComparator a b = true ∧ cBlockIndexWorkComparator b a = true)) ∧
      (∀ a b : CBlockIndexRef, a.ident ≠ b.ident →
        cBlockIndexWorkComparator a b = true ∨ cBlockIndexWorkComparator b a = true) ∧
      (∀ a b : CBlockIndexRef, nParentChainWork a < nParentChainWork b →
        cBlockIndexWorkComparator a b = true) ∧
      (∀ a b : CBlockIndexRef, nParentChainWork a = nParentChainWork b →
        a.nSequenceId < b.nSequenceId → cBlockIndexWorkComparator b a = true) ∧
      (∀ a b : CBlockIndexRef, nParentChainWork a = nParentChainWork b →
        a.nSequenceId = b.nSequenceId → b.ident < a.ident →
        cBlockIndexWorkComparator a b = true) ∧
      (∀ a b : CBlockIndexRef, ∀ w w' : Nat,
        cBlockIndexWorkComparator { a with nChainWork := w } { b with nChainWork := w' } =
          cBlockIndexWorkComparator a b) := by
  refine ⟨comparator_irrefl, ?_, fun a b h => comparator_total h, ?_, ?_, ?_, ?_⟩
  · intro a b ⟨h1, h2⟩
    rw [comparator_asymm h1] at h2
    cases h2
  · intro a b h
    rw [comparator_eq_true_iff]
    exact Or.inl h
  · intro a b hw hs
    rw [comparator_eq_true_iff]
    exact Or.inr ⟨hw.symm, Or.inl hs⟩
  · intro a b hw hs hi
    rw [comparator_eq_true_iff]
    exact Or.inr ⟨hw, Or.inr ⟨hs, hi⟩⟩
  · intro a b w w'
    rfl

/-- Witness for C2: the comparator at concrete entries, discharging the
hypotheses of the totality and key clauses. -/
theorem cBlockIndexWorkComparator_spec_witness :
    cBlockIndexWorkComparator ⟨0, 9, some 1, 1⟩ ⟨1, 3, some 2, 2⟩ = true ∧
      cBlockIndexWorkComparator ⟨0, 9, some 2, 2⟩ ⟨1, 3, some 2, 1⟩ = true :=
  ⟨cBlockIndexWorkComparator_spec.2.2.2.1 ⟨0, 9, some 1, 1⟩ ⟨1, 3, some 2, 2⟩ (by decide),
    cBlockIndexWorkComparator_spec.2.2.2.2.1 ⟨1, 3, some 2, 1⟩ ⟨0, 9, some 2, 2⟩
      (by decide) (by decide)⟩

end Cmp

/-! ## Fork-boundary mempool clearing (src/src/utilfork.cpp)

`ForkMempoolClearer` decides, on a tip change, whether the mempool must be
wiped because a fork with incompatible transaction rules was activated
(append) or deactivated (rollback).  Block-index entries are embedded as
structural references carrying the fields the file reads: height,
median-time-past and the parent link.  `GetMedianTimePast` is a pure function
of a block's ancestors, so it appears as a stored field here; the versionbits
state machine (`versionbits.cpp` is not among the sources at hand) enters as
an oracle `vbActive`, and the option values `Opt().UAHFTime()` and
`Opt().ThirdHFTime()` as parameters. -/

namespace Fork

/-- A block-index entry as read by utilfork.cpp: identity, height,
median-time-past of the chain ending at the entry, and the parent pointer.
Of the parent, the file reads only its identity (as the versionbits oracle's
argument) and its median-time-past, so the parent link carries exactly that
pair. -/
structure BlockRef where
  ident : Nat
  nHeight : Nat
  mtp : Nat
  pprev : Option (Nat × Nat)
deriving DecidableEq, Repr

/-- The configuration and collaborators utilfork.cpp consults: the two
MTP-gated fork times, the configured versionbits deployment positions, the
versionbits state oracle (`VersionBitsState(...) == THRESHOLD_ACTIVE`, keyed
by deployment position and block identity), and each deployment's `gbt_force`
flag. -/
structure ForkEnv where
  uahfTime : Nat
  thirdHFTime : Nat
  deployments : List Nat
  vbActive : Nat → Nat → Bool
  gbtForce : Nat → Bool

/-- The mempool, observed through its transaction list and a count of
`clear()` invocations. -/
structure Mempool where
  txs : List Nat
  clearCount : Nat
deriving DecidableEq, Repr

/-- `CTxMemPool::clear()`. -/
def Mempool.clear (m : Mempool) : Mempool :=
  { txs := [], clearCount := m.clearCount + 1 }

/-- `IsForkActive` (src/src/utilfork.cpp): an unconfigured (zero) activation
time is never active; otherwise active once the chain-tip MTP reaches it. -/
def isForkActive (mtpActivation mtpChainTip : Nat) : Bool :=
  if mtpActivation = 0 then false
  else decide (mtpChainTip ≥ mtpActivation)

/-- `IsForkActivatingBlock` (src/src/utilfork.cpp): the block whose MTP first
reaches the activation time; with no parent, activation happened at genesis.
Of `pindexPrev` only the median-time-past is read, so that is what is
passed. -/
def isForkActivatingBlock (mtpActivationTime mtpCurrent : Nat)
    (prevMtp : Option Nat) : Bool :=
  if mtpActivationTime = 0 then false
  else if mtpCurrent < mtpActivationTime then false
  else
    match prevMtp with
    | none => true
    | some pm => decide (pm < mtpActivationTime)

/-- `NeedsClearAfterRollback` (src/src/utilfork.cpp lines 58–127): a rollback
needs a clear when it undoes the UAHF or third-HF MTP activation, or rolls an
active configured versionbits deployment back to inactive. -/
def needsClearAfterRollback (env : ForkEnv) (oldTip : BlockRef) : Bool :=
  match oldTip.pprev with
  | none => false
  | some prev =>
    if [env.uahfTime, env.thirdHFTime].any
        (fun t => isForkActive t oldTip.mtp && !isForkActive t prev.2) then
      true
    else
      env.deployments.any
        (fun bit => env.vbActive bit oldTip.ident && !env.vbActive bit prev.1)

/-- `NeedsClearAfterAppend` (src/src/utilfork.cpp): an append needs a clear
when the new tip is the UAHF activating block, or a configured
non-`gbt_force` versionbits deployment became active at the new tip. -/
def needsClearAfterAppend (env : ForkEnv) (oldTip newTip : BlockRef) : Bool :=
  if isForkActivatingBlock env.uahfTime newTip.mtp (some oldTip.mtp) then true
  else
    env.deployments.any
      (fun bit => !env.vbActive bit oldTip.ident && env.vbActive bit newTip.ident &&
        !env.gbtForce bit)

/-- `ForkMempoolClearer` (src/src/utilfork.cpp lines 129–146): a null or
unchanged tip is a no-op; otherwise a height drop is a rollback, a height gain
an append, and the mempool is cleared exactly when the respective check
demands it. -/
def forkMempoolClearer (env : ForkEnv) (mempool : Mempool)
    (oldTip newTip : Option BlockRef) : Mempool :=
  match oldTip, newTip with
  | some o, some n =>
    if o = n then mempool
    else if (if o.nHeight > n.nHeight then needsClearAfterRollback env o
             else needsClearAfterAppend env o n) then
      mempool.clear
    else mempool
  | _, _ => mempool

/-- C10: for every call `ForkMempoolClearer(mempool, oldTip, newTip)` in which
`oldTip` is null, `newTip` is null, or `oldTip` equals `newTip`, the function
returns without modifying the mempool (`mempool.clear()` is never invoked);
and the mempool is only ever cleared on an actual tip change that crosses a
fork activation (append) or deactivation (rollback) boundary as decided by
`NeedsClearAfterAppend` / `NeedsClearAfterRollback`. -/
theorem forkMempoolClearer_frame :
    (∀ (env : ForkEnv) (m : Mempool) (o n : Option BlockRef),
        o = none ∨ n = none ∨ o = n → forkMempoolClearer env m o n = m) ∧
      (∀ (env : ForkEnv) (m : Mempool) (o n : Option BlockRef),
        forkMempoolClearer env m o n ≠ m →
          ∃ ob nb, o = some ob ∧ n = some nb ∧ ob ≠ nb ∧
            forkMempoolClearer env m o n = m.clear ∧
            ((ob.nHeight > nb.nHeight ∧ needsClearAfterRollback env ob = true) ∨
              (¬ob.nHeight > nb.nHeight ∧ needsClearAfterAppend env ob nb = true))) := by
  constructor
  · rintro env m o n (rfl | rfl | rfl)
    · rfl
    · cases o <;> rfl
    · cases o <;> simp [forkMempoolClearer]
  · intro env m o n hne
    match o, n with
    | none, none => exact absurd rfl hne
    | none, some _ => exact absurd rfl hne
    | some _, none => exact absurd rfl hne
    | some ob, some nb =>
      by_cases heq : ob = nb
      · subst heq
        exact absurd (by simp [forkMempoolClearer]) hne
      · by_cases hh : ob.nHeight > nb.nHeight
        · by_cases hc : needsClearAfterRollback env ob = true
          · exact ⟨ob, nb, rfl, rfl, heq,
              by simp [forkMempoolClearer, heq, hh, hc], Or.inl ⟨hh, hc⟩⟩
          · refine absurd ?_ hne
            simp [forkMempoolClearer, heq, hh, hc]
        · by_cases hc : needsClearAfterAppend env ob nb = true
          · exact ⟨ob, nb, rfl, rfl, heq,
              by simp [forkMempoolClearer, heq, hh, hc], Or.inr ⟨hh, hc⟩⟩
          · refine absurd ?_ hne
            simp [forkMempoolClearer, heq, hh, hc]

/-- Witness for C10: a concrete no-op call with both tips null. -/
theorem forkMempoolClearer_frame_witness :
    forkMempoolClearer ⟨0, 0, [], fun _ _ => false, fun _ => false⟩ ⟨[7], 0⟩
        none none = ⟨[7], 0⟩ :=
  forkMempoolClearer_frame.1 ⟨0, 0, [], fun _ _ => false, fun _ => false⟩ ⟨[7], 0⟩
    none none (Or.inl rfl)

end Fork

/-! ## Invalid-block bookkeeping (InvalidBlockFound, src/src/main.cpp)

`InvalidBlockFound` runs when a block fails validation during connection: it
pushes a reject record to every supplying peer and punishes them when allowed,
and — only when the failure cannot be explained by local corruption — marks
the index entry `FAILED_VALID`, dirties it, removes it from the candidate set
and updates the best-invalid marker (`InvalidChainFound`).  Peer state lives
in a map from node id to `CNodeState`; an absent id models a null
`NodeStatePtr`. -/

namespace Inval

/-- The per-peer state touched here: misbehavior score, ban flag, and the
list of queued reject messages (reject code, block hash). -/
structure NodeState where
  nMisbehavior : Nat
  fShouldBan : Bool
  rejects : List (Nat × Nat)
deriving DecidableEq, Repr

/-- The fields of `CValidationState` that `InvalidBlockFound` reads: the
invalid mode, its DoS points, the corruption-possible flag and the reject
code. -/
structure ValidationState where
  isInvalid : Bool
  nDoS : Nat
  corruptionPossible : Bool
  rejectCode : Nat
deriving DecidableEq, Repr

/-- `BlockSource`: the peers that supplied the block and whether they may be
punished for it. -/
structure BlockSource where
  nodes : List Nat
  canMisbehave : Bool
deriving Repr

/-- The index entry of the failing block, with the fields this path touches. -/
structure BlockEntry where
  hash : Nat
  failedValid : Bool
  failedChild : Bool
  nChainWork : Nat
deriving DecidableEq, Repr

/-- The global state `InvalidBlockFound` mutates: the peer map, the failing
entry, the dirty set, the candidate set and the best-invalid marker. -/
structure SysState where
  nodeStates : Nat → Option NodeState
  entry : BlockEntry
  dirty : List Nat
  candidates : List Nat
  bestInvalid : Option BlockEntry

/-- `Misbehaving` (src/src/main.cpp): zero points are a no-op; otherwise the
score grows and the ban flag is raised exactly when the score first crosses
`-banscore`. -/
def misbehaving (banscore : Nat) (ns : NodeState) (howmuch : Nat) : NodeState :=
  if howmuch = 0 then ns
  else
    { ns with
      nMisbehavior := ns.nMisbehavior + howmuch
      fShouldBan :=
        if banscore ≤ ns.nMisbehavior + howmuch ∧ ns.nMisbehavior < banscore then true
        else ns.fShouldBan }

/-- One iteration of the reject/punish loop of `InvalidBlockFound` for peer
`id`: skip a null peer, else queue the reject and, when the source may
misbehave and the state carries DoS points, call `Misbehaving`. -/
def pushRejectAndPunish (banscore nDoS : Nat) (canMisbehave : Bool)
    (rejectCode blockHash : Nat) (nodes : Nat → Option NodeState) (id : Nat) :
    Nat → Option NodeState :=
  match nodes id with
  | none => nodes
  | some ns =>
    fun j =>
      if j = id then
        some (if canMisbehave = true ∧ 0 < nDoS then
            misbehaving banscore
              { ns with rejects := ns.rejects ++ [(rejectCode, blockHash)] } nDoS
          else { ns with rejects := ns.rejects ++ [(rejectCode, blockHash)] })
      else nodes j

/-- `InvalidChainFound`'s update of `pindexBestInvalid`: keep the entry of
greater cumulative work. -/
def invalidChainFoundUpdate (best : Option BlockEntry) (e : BlockEntry) :
    Option BlockEntry :=
  match best with
  | none => some e
  | some b => if e.nChainWork > b.nChainWork then some e else some b

/-- `InvalidBlockFound` (src/src/main.cpp lines 1326–1352), first half: when
the state is invalid, push a reject to every source peer and punish those
allowed to misbehave when DoS points are positive. -/
def punishPhase (banscore : Nat) (st : SysState) (vstate : ValidationState)
    (src : BlockSource) : SysState :=
  if vstate.isInvalid = true then
    { st with
      nodeStates := src.nodes.foldl
        (fun acc id =>
          pushRejectAndPunish banscore vstate.nDoS src.canMisbehave
            vstate.rejectCode st.entry.hash acc id)
        st.nodeStates }
  else st

/-- `InvalidBlockFound` (src/src/main.cpp lines 1326–1352), second half: after
the reject/punish loop, only when corruption is not possible, set
`FAILED_VALID`, dirty the entry, erase it from the candidates and update the
best-invalid marker. -/
def invalidBlockFound (banscore : Nat) (st : SysState) (vstate : ValidationState)
    (src : BlockSource) : SysState :=
  if vstate.corruptionPossible = true then punishPhase banscore st vstate src
  else
    { punishPhase banscore st vstate src with
      entry := { (punishPhase banscore st vstate src).entry with failedValid := true }
      dirty := (punishPhase banscore st vstate src).dirty ++
        [(punishPhase banscore st vstate src).entry.hash]
      candidates := (punishPhase banscore st vstate src).candidates.filter
        (fun h => h ≠ (punishPhase banscore st vstate src).entry.hash)
      bestInvalid := invalidChainFoundUpdate (punishPhase banscore st vstate src).bestInvalid
        { (punishPhase banscore st vstate src).entry with failedValid := true } }

/-- A single reject/punish step never lowers a peer's misbehavior score, and
for the targeted, present peer of a punishable invalid state it raises it by
`nDoS`. -/
theorem pushRejectAndPunish_mono (banscore nDoS : Nat) (canMisbehave : Bool)
    (rejectCode blockHash : Nat) (nodes : Nat → Option NodeState) (i j : Nat)
    (ns : NodeState) (h : nodes j = some ns) :
    ∃ ns', pushRejectAndPunish banscore nDoS canMisbehave rejectCode blockHash
        nodes i j = some ns' ∧
      ns.nMisbehavior ≤ ns'.nMisbehavior ∧
      (j = i → canMisbehave = true → 0 < nDoS →
        ns.nMisbehavior + nDoS ≤ ns'.nMisbehavior) := by
  unfold pushRejectAndPunish
  cases hi : nodes i with
  | none =>
    refine ⟨ns, h, le_refl _, ?_⟩
    rintro rfl hcan hdos
    rw [h] at hi
    cases hi
  | some nsi =>
    by_cases hji : j = i
    · subst hji
      rw [h] at hi
      obtain rfl : nsi = ns := by injection hi with hx; exact hx.symm
      refine ⟨if canMisbehave = true ∧ 0 < nDoS then
          misbehaving banscore
            { nsi with rejects := nsi.rejects ++ [(rejectCode, blockHash)] } nDoS
        else { nsi with rejects := nsi.rejects ++ [(rejectCode, blockHash)] },
        by simp, ?_, ?_⟩
      · by_cases hcan : canMisbehave = true ∧ 0 < nDoS
        · rw [if_pos hcan]
          unfold misbehaving
          split
          · simp
          · simp
        · rw [if_neg hcan]
      · intro _ hcan1 hcan2
        rw [if_pos ⟨hcan1, hcan2⟩]
        unfold misbehaving
        rw [if_neg (by omega : ¬nDoS = 0)]
    · refine ⟨ns, ?_, le_refl _, fun hji' => absurd hji' hji⟩
      simp [if_neg hji, h]

/-- Folding the reject/punish loop over any peer list never lowers scores. -/
theorem punishFold_mono (banscore nDoS : Nat) (canMisbehave : Bool)
    (rejectCode blockHash : Nat) (l : List Nat) (nodes : Nat → Option NodeState)
    (j : Nat) (ns : NodeState) (h : nodes j = some ns) :
    ∃ ns', l.foldl (fun acc id =>
        pushRejectAndPunish banscore nDoS canMisbehave rejectCode blockHash acc id)
        nodes j = some ns' ∧ ns.nMisbehavior ≤ ns'.nMisbehavior := by
  induction l generalizing nodes ns with
  | nil => exact ⟨ns, h, le_refl _⟩
  | cons i rest ih =>
    obtain ⟨ns1, h1, hle1, -⟩ := pushRejectAndPunish_mono banscore nDoS canMisbehave
      rejectCode blockHash nodes i j ns h
    obtain ⟨ns2, h2, hle2⟩ := ih _ _ h1
    exact ⟨ns2, h2, le_trans hle1 hle2⟩

/-- Folding the reject/punish loop raises the score of every present listed
peer by at least `nDoS`, when the source may misbehave and `nDoS` is
positive. -/
theorem punishFold_raises (banscore nDoS : Nat) (rejectCode blockHash : Nat)
    (j : Nat) (hdos : 0 < nDoS) :
    ∀ (l : List Nat) (nodes : Nat → Option NodeState) (ns : NodeState),
      j ∈ l → nodes j = some ns →
      ∃ ns', l.foldl (fun acc id =>
          pushRejectAndPunish banscore nDoS true rejectCode blockHash acc id)
          nodes j = some ns' ∧ ns.nMisbehavior + nDoS ≤ ns'.nMisbehavior := by
  intro l
  induction l with
  | nil =>
    intro nodes ns hj h
    cases hj
  | cons i rest ih =>
    intro nodes ns hj h
    obtain ⟨ns1, h1, hle1, hpunish⟩ := pushRejectAndPunish_mono banscore nDoS true
      rejectCode blockHash nodes i j ns h
    rcases List.mem_cons.mp hj with rfl | hjrest
    · have hstep := hpunish rfl rfl hdos
      obtain ⟨ns2, h2, hle2⟩ := punishFold_mono banscore nDoS true rejectCode
        blockHash rest _ j ns1 h1
      exact ⟨ns2, h2, by omega⟩
    · obtain ⟨ns2, h2, hle2⟩ := ih _ _ hjrest h1
      exact ⟨ns2, h2, by omega⟩

/-- The punish phase leaves every field but the peer map unchanged. -/
theorem punishPhase_frame (banscore : Nat) (st : SysState) (v : ValidationState)
    (src : BlockSource) :
    (punishPhase banscore st v src).entry = st.entry ∧
      (punishPhase banscore st v src).dirty = st.dirty ∧
      (punishPhase banscore st v src).candidates = st.candidates ∧
      (punishPhase banscore st v src).bestInvalid = st.bestInvalid := by
  unfold punishPhase
  split <;> exact ⟨rfl, rfl, rfl, rfl⟩

/-- `InvalidBlockFound` never changes the peer map beyond the punish phase. -/
theorem invalidBlockFound_nodeStates (banscore : Nat) (st : SysState)
    (v : ValidationState) (src : BlockSource) :
    (invalidBlockFound banscore st v src).nodeStates =
      (punishPhase banscore st v src).nodeStates := by
  unfold invalidBlockFound
  split <;> rfl

/-- C6 counterexample: a corruption-possible invalid state carrying 100 DoS
points, supplied by punishable peer 7, still increments that peer's
misbehavior score from 0 to 100 — the claim's "the supplying peer's DoS score
is not incremented" fails on the code. -/
def cexState : SysState :=
  { nodeStates := fun id => if id = 7 then some ⟨0, false, []⟩ else none
    entry := ⟨5, false, false, 10⟩
    dirty := []
    candidates := [5]
    bestInvalid := none }

/-- C6 is false as stated: at the concrete corruption-possible failure above,
the peer's DoS score is incremented (0 becomes 100). -/
theorem invalidBlockFound_corruption_cex :
    (⟨true, 100, true, 16⟩ : ValidationState).corruptionPossible = true ∧
      cexState.nodeStates 7 = some ⟨0, false, []⟩ ∧
      (invalidBlockFound 100 cexState ⟨true, 100, true, 16⟩ ⟨[7], true⟩).nodeStates 7 =
        some ⟨100, true, [(16, 5)]⟩ := by
  refine ⟨rfl, by decide, by decide⟩

/-- C6 (amended): whenever validation fails with `corruption_possible=true`,
the failing block's index entry does not get `FAILED_VALID` set, it is not
added to the dirty set, it is not removed from the candidate set and the
best-invalid marker is untouched; the supplying peer's DoS score, however, is
still incremented whenever the state is invalid with positive DoS points and
the source may misbehave, independently of `corruption_possible`; only
failures with `corruption_possible=false` mark the entry `FAILED_VALID`, add
it to the dirty set and remove it from the candidate set. -/
theorem invalidBlockFound_corruption_effects (banscore : Nat) (st : SysState)
    (v : ValidationState) (src : BlockSource) :
    (v.corruptionPossible = true →
      (invalidBlockFound banscore st v src).entry = st.entry ∧
        (invalidBlockFound banscore st v src).dirty = st.dirty ∧
        (invalidBlockFound banscore st v src).candidates = st.candidates ∧
        (invalidBlockFound banscore st v src).bestInvalid = st.bestInvalid) ∧
      (v.corruptionPossible = false →
        (invalidBlockFound banscore st v src).entry.failedValid = true ∧
          st.entry.hash ∈ (invalidBlockFound banscore st v src).dirty ∧
          st.entry.hash ∉ (invalidBlockFound banscore st v src).candidates) ∧
      (v.isInvalid = true → 0 < v.nDoS → src.canMisbehave = true →
        ∀ j ∈ src.nodes, ∀ ns, st.nodeStates j = some ns →
          ∃ ns', (invalidBlockFound banscore st v src).nodeStates j = some ns' ∧
            ns.nMisbehavior + v.nDoS ≤ ns'.nMisbehavior) := by
  obtain ⟨hfe, hfd, hfc, hfb⟩ := punishPhase_frame banscore st v src
  refine ⟨?_, ?_, ?_⟩
  · intro hc
    unfold invalidBlockFound
    rw [if_pos hc]
    exact ⟨hfe, hfd, hfc, hfb⟩
  · intro hc
    unfold invalidBlockFound
    rw [if_neg (by simp [hc])]
    refine ⟨rfl, ?_, ?_⟩
    · rw [hfe, hfd]
      simp
    · rw [hfe, hfc]
      intro hmem
      have := (List.mem_filter.mp hmem).2
      simp at this
  · intro hinv hdos hcan j hj ns hns
    rw [invalidBlockFound_nodeStates]
    unfold punishPhase
    rw [if_pos hinv, hcan]
    exact punishFold_raises banscore v.nDoS v.rejectCode st.entry.hash j hdos
      src.nodes st.nodeStates ns hj hns

/-- Witness for the amended C6, at the concrete corruption-possible failure:
the entry is untouched while peer 7's score rises by the DoS points. -/
theorem invalidBlockFound_corruption_effects_witness :
    (invalidBlockFound 100 cexState ⟨true, 100, true, 16⟩ ⟨[7], true⟩).entry =
        cexState.entry ∧
      ∃ ns', (invalidBlockFound 100 cexState ⟨true, 100, true, 16⟩ ⟨[7], true⟩).nodeStates 7 =
          some ns' ∧
        (⟨0, false, []⟩ : NodeState).nMisbehavior + 100 ≤ ns'.nMisbehavior :=
  ⟨((invalidBlockFound_corruption_effects 100 cexState ⟨true, 100, true, 16⟩
      ⟨[7], true⟩).1 rfl).1,
    (invalidBlockFound_corruption_effects 100 cexState ⟨true, 100, true, 16⟩
      ⟨[7], true⟩).2.2 rfl (by decide) rfl 7 (by decide) ⟨0, false, []⟩ (by decide)⟩

end Inval

/-! ## Block acceptance (AcceptBlock, src/src/main.cpp)

`AcceptBlock` first accepts the header, then decides whether to process the
block at all, runs the stateless and contextual block checks, and finally
writes the block to storage.  Header acceptance, the two check bundles, and
the storage primitives are external to the decision logic under scrutiny and
enter as recorded outcomes; the control flow joining them is translated from
the source.  `chainActive.Height()` is `-1` for an empty chain, so the
too-far-ahead comparison is carried out in `Int` as in the C++ `int`
arithmetic. -/

namespace Accept

/-- The index entry returned by `AcceptBlockHeader`, with the fields
`AcceptBlock` reads. -/
structure IndexEntry where
  haveData : Bool
  nTx : Nat
  nChainWork : Nat
  nHeight : Nat
deriving DecidableEq, Repr

/-- The active-chain tip observations `AcceptBlock` makes. -/
structure ChainTip where
  nChainWork : Nat
  nHeight : Nat
deriving DecidableEq, Repr

/-- Outcome of the embedded `AcceptBlockHeader` call. -/
inductive HeaderOutcome where
  | accepted (entry : IndexEntry)
  | rejected
deriving DecidableEq, Repr

/-- Recorded outcomes of the collaborators `AcceptBlock` invokes after the
early-out ladder: the combined `CheckBlock`/`ContextualCheckBlock` result with
the flags of the validation state it leaves behind, and the storage
primitives. -/
structure AcceptEnv where
  headerOutcome : HeaderOutcome
  checksOK : Bool
  checkInvalid : Bool
  checkCorruption : Bool
  findBlockPosOK : Bool
  writeOK : Bool
  receivedOK : Bool
deriving DecidableEq, Repr

/-- What a call to `AcceptBlock` did: its return value, whether block data
was written to storage, and whether the entry was marked `FAILED_VALID`. -/
structure AcceptOut where
  success : Bool
  wroteBlockData : Bool
  markedFailedValid : Bool
deriving DecidableEq, Repr

/-- `fHasMoreWork`: the block's chain work strictly exceeds the tip's; a null
tip counts as more work. -/
def fHasMoreWork (tip : Option ChainTip) (pindex : IndexEntry) : Bool :=
  match tip with
  | none => true
  | some t => decide (pindex.nChainWork > t.nChainWork)

/-- `fTooFarAhead`: the block's height exceeds the tip height (or `-1`)
plus `MIN_BLOCKS_TO_KEEP`. -/
def fTooFarAhead (minBlocksToKeep : Nat) (tip : Option ChainTip)
    (pindex : IndexEntry) : Bool :=
  match tip with
  | none => decide ((pindex.nHeight : Int) > -1 + minBlocksToKeep)
  | some t => decide ((pindex.nHeight : Int) > t.nHeight + minBlocksToKeep)

/-- The tail of `AcceptBlock` after the early-out ladder: run the stateless
and contextual checks (marking `FAILED_VALID` on a non-corruption invalid
failure), then find a position, write the block when no disk position was
supplied, and record the transactions.  A `WriteBlockToDisk` failure calls
`AbortNode` but, as in the source, does not return early. -/
def acceptBlockTail (env : AcceptEnv) (hasDiskPos : Bool) : AcceptOut :=
  if env.checksOK = false then
    ⟨false, false, env.checkInvalid && !env.checkCorruption⟩
  else if env.findBlockPosOK = false then ⟨false, false, false⟩
  else
    ⟨env.receivedOK, !hasDiskPos && env.writeOK, false⟩

/-- `AcceptBlock` (src/src/main.cpp lines 2937–3015): accept the header; an
entry that already has data returns success untouched; an unrequested block
that was previously processed, lacks more work than the tip, or sits too far
ahead of the tip is skipped with success; otherwise check and store the
block.  This is the body once the header's index entry is in hand. -/
def acceptBlockKnown (minBlocksToKeep : Nat) (tip : Option ChainTip)
    (env : AcceptEnv) (fRequested : Bool) (hasDiskPos : Bool)
    (pindex : IndexEntry) : AcceptOut :=
  if pindex.haveData = true then ⟨true, false, false⟩
  else if fRequested = false then
    if pindex.nTx ≠ 0 then ⟨true, false, false⟩
    else if fHasMoreWork tip pindex = false then ⟨true, false, false⟩
    else if fTooFarAhead minBlocksToKeep tip pindex = true then ⟨true, false, false⟩
    else acceptBlockTail env hasDiskPos
  else acceptBlockTail env hasDiskPos

/-- `AcceptBlock` proper: a rejected header propagates the failure, an
accepted one proceeds with its index entry. -/
def acceptBlock (minBlocksToKeep : Nat) (tip : Option ChainTip) (env : AcceptEnv)
    (fRequested : Bool) (hasDiskPos : Bool) : AcceptOut :=
  match env.headerOutcome with
  | .rejected => ⟨false, false, false⟩
  | .accepted pindex =>
    acceptBlockKnown minBlocksToKeep tip env fRequested hasDiskPos pindex

/-- C5 counterexample: an unrequested block that is already known (its entry
has data), offered to a node whose tip it does not beat, makes `AcceptBlock`
return success — not failure as the claim states; likewise an unrequested
fresh block without more chain work than the tip returns success.  No block
data is written in either case. -/
theorem acceptBlock_unrequested_cex :
    acceptBlock 288 (some ⟨100, 10⟩)
        { headerOutcome := .accepted ⟨true, 1, 50, 8⟩, checksOK := true,
          checkInvalid := false, checkCorruption := false, findBlockPosOK := true,
          writeOK := true, receivedOK := true } false false =
      ⟨true, false, false⟩ ∧
      acceptBlock 288 (some ⟨100, 10⟩)
          { headerOutcome := .accepted ⟨false, 0, 90, 8⟩, checksOK := true,
            checkInvalid := false, checkCorruption := false, findBlockPosOK := true,
            writeOK := true, receivedOK := true } false false =
        ⟨true, false, false⟩ := by
  refine ⟨by decide, by decide⟩

/-- C5 (amended): for every block passed to `AcceptBlock` with
`requested=false` whose header acceptance succeeds, the block is skipped —
the call returns success, writes no block data and marks nothing
`FAILED_VALID` — when the block is already known (its entry has data or was
previously processed), or its chain work does not exceed the current tip's,
or its height is more than `MIN_BLOCKS_TO_KEEP` above the current tip's
height. -/
theorem acceptBlock_unrequested_skips (minBlocksToKeep : Nat)
    (tip : Option ChainTip) (env : AcceptEnv) (hasDiskPos : Bool)
    (pindex : IndexEntry) (hhdr : env.headerOutcome = .accepted pindex)
    (hcond : pindex.haveData = true ∨ pindex.nTx ≠ 0 ∨
      fHasMoreWork tip pindex = false ∨
      fTooFarAhead minBlocksToKeep tip pindex = true) :
    acceptBlock minBlocksToKeep tip env false hasDiskPos = ⟨true, false, false⟩ := by
  have hstep : acceptBlock minBlocksToKeep tip env false hasDiskPos =
      acceptBlockKnown minBlocksToKeep tip env false hasDiskPos pindex := by
    unfold acceptBlock
    rw [hhdr]
  rw [hstep]
  unfold acceptBlockKnown
  by_cases h1 : pindex.haveData = true
  · rw [if_pos h1]
  · rw [if_neg h1, if_pos rfl]
    by_cases h2 : pindex.nTx ≠ 0
    · rw [if_pos h2]
    · rw [if_neg h2]
      by_cases h3 : fHasMoreWork tip pindex = false
      · rw [if_pos h3]
      · rw [if_neg h3]
        by_cases h4 : fTooFarAhead minBlocksToKeep tip pindex = true
        · rw [if_pos h4]
        · rcases hcond with h | h | h | h
          · exact absurd h h1
          · exact absurd h h2
          · exact absurd h h3
          · exact absurd h h4

/-- Witness for the amended C5: the concrete unrequested less-work block is
skipped with success and nothing written. -/
theorem acceptBlock_unrequested_skips_witness :
    acceptBlock 288 (some ⟨100, 10⟩)
        { headerOutcome := .accepted ⟨false, 0, 90, 8⟩, checksOK := true,
          checkInvalid := false, checkCorruption := false, findBlockPosOK := true,
          writeOK := true, receivedOK := true } false false =
      ⟨true, false, false⟩ :=
  acceptBlock_unrequested_skips 288 (some ⟨100, 10⟩)
    { headerOutcome := .accepted ⟨false, 0, 90, 8⟩, checksOK := true,
      checkInvalid := false, checkCorruption := false, findBlockPosOK := true,
      writeOK := true, receivedOK := true } false ⟨false, 0, 90, 8⟩ rfl
    (Or.inr (Or.inr (Or.inl (by decide))))

end Accept

/-! ## Header acceptance (AcceptBlockHeader / ContextualCheckBlockHeader)

A block-index entry here carries the full timestamp list of its chain so that the
median-time-past is a function of the entry.  The retarget policy
(`GetNextWorkRequired`), the RTT proof-of-work check (the four-argument
`CheckProofOfWork` of pow.h, whose translation unit variant is not the one at
hand) and the stateless clock check (`CheckBlockHeader`, which consults the
adjusted system time) enter as oracles; the contextual decision ladder is
translated from the source. -/

namespace Hdr

/-- An 80-byte header, as read by the acceptance path; `hash` carries
`GetHash()` as a content-address field. -/
structure Header where
  nVersion : Int
  hashPrevBlock : Nat
  nTime : Nat
  nBits : Nat
  hash : Nat
deriving DecidableEq, Repr

/-- A block-index entry: its hash, height, the timestamps of its whole chain
(genesis first, the entry's own time last), its compact target and the
failed mask. -/
structure HdrIndex where
  hash : Nat
  nHeight : Nat
  times : List Nat
  nBits : Nat
  failed : Bool
deriving DecidableEq, Repr

/-- `GetBlockTime()` of an entry: the last timestamp of its chain. -/
def HdrIndex.nTime (e : HdrIndex) : Nat := e.times.getLastD 0

/-- Insert into a sorted list, keeping it sorted. -/
def insertSorted (x : Nat) : List Nat → List Nat
  | [] => [x]
  | y :: ys => if x ≤ y then x :: y :: ys else y :: insertSorted x ys

/-- Sort a list of timestamps ascending. -/
def sortTimes (l : List Nat) : List Nat := l.foldr insertSorted []

/-- Modelled from the spec: `GetMedianTimePast` (chain.h, not among the
sources at hand) per the spec's §4.G/glossary "median of previous 11 block
times": collect the last `min(11, n)` timestamps of the chain, sort them, and
take the middle element (index `count / 2` of the sorted array). -/
def medianTimePast (times : List Nat) : Nat :=
  (sortTimes (times.drop (times.length - 11))).getD
    ((times.drop (times.length - 11)).length / 2) 0

/-- Membership through sorted insertion. -/
theorem mem_insertSorted {a x : Nat} : ∀ {l : List Nat},
    a ∈ insertSorted x l → a = x ∨ a ∈ l := by
  intro l
  induction l with
  | nil =>
    intro h
    simp [insertSorted] at h
    exact Or.inl h
  | cons y ys ih =>
    intro h
    unfold insertSorted at h
    split at h
    · rcases List.mem_cons.mp h with rfl | h2
      · exact Or.inl rfl
      · exact Or.inr h2
    · rcases List.mem_cons.mp h with rfl | h2
      · exact Or.inr (List.mem_cons_self _ _)
      · rcases ih h2 with h3 | h3
        · exact Or.inl h3
        · exact Or.inr (List.mem_cons_of_mem _ h3)

/-- Membership through sorting. -/
theorem mem_sortTimes {a : Nat} : ∀ {l : List Nat}, a ∈ sortTimes l → a ∈ l := by
  intro l
  induction l with
  | nil =>
    intro h
    simp [sortTimes] at h
  | cons y ys ih =>
    intro h
    have h' : a ∈ insertSorted y (sortTimes ys) := h
    rcases mem_insertSorted h' with rfl | h2
    · exact List.mem_cons_self _ _
    · exact List.mem_cons_of_mem _ (ih h2)

/-- Sorted insertion grows the length by one. -/
theorem length_insertSorted (x : Nat) : ∀ (l : List Nat),
    (insertSorted x l).length = l.length + 1 := by
  intro l
  induction l with
  | nil => rfl
  | cons y ys ih =>
    unfold insertSorted
    split
    · simp
    · simp [ih]

/-- Sorting preserves length. -/
theorem length_sortTimes : ∀ (l : List Nat), (sortTimes l).length = l.length := by
  intro l
  induction l with
  | nil => rfl
  | cons y ys ih =>
    have : sortTimes (y :: ys) = insertSorted y (sortTimes ys) := rfl
    rw [this, length_insertSorted, ih, List.length_cons]

/-- The trailing default element of a nonempty list is a member. -/
theorem getLastD_mem : ∀ (l : List Nat) (d : Nat), l = [] ∨ l.getLastD d ∈ l := by
  intro l
  induction l with
  | nil => exact fun d => Or.inl rfl
  | cons a t ih =>
    intro d
    refine Or.inr ?_
    rcases ih a with rfl | hmem
    · simp [List.getLastD]
    · rw [List.getLastD_cons]
      exact List.mem_cons_of_mem _ hmem

/-- In a `≤`-sorted list every member is bounded by the trailing element. -/
theorem mem_le_getLastD : ∀ (l : List Nat) (d : Nat), l.Pairwise (· ≤ ·) →
    ∀ x ∈ l, x ≤ l.getLastD d := by
  intro l
  induction l with
  | nil =>
    intro d _ x hx
    cases hx
  | cons a t ih =>
    intro d hp x hx
    obtain ⟨ha, hp'⟩ := List.pairwise_cons.mp hp
    rw [List.getLastD_cons]
    rcases List.mem_cons.mp hx with rfl | hxt
    · rcases getLastD_mem t x with rfl | hmem
      · simp [List.getLastD]
      · exact ha _ hmem
    · exact ih a hp' x hxt

/-- The median of the last eleven timestamps of a sorted chain never exceeds
the chain's last timestamp. -/
theorem medianTimePast_le_last (times : List Nat) (hne : times ≠ [])
    (hmono : times.Pairwise (· ≤ ·)) :
    medianTimePast times ≤ times.getLastD 0 := by
  unfold medianTimePast
  have hlen : (times.drop (times.length - 11)).length = 11 ⊓ times.length := by
    rw [List.length_drop]
    omega
  have hpos : 0 < times.length := List.length_pos.mpr hne
  have hidx : (times.drop (times.length - 11)).length / 2 <
      (sortTimes (times.drop (times.length - 11))).length := by
    rw [length_sortTimes, hlen]
    omega
  set srt := sortTimes (times.drop (times.length - 11)) with hsrt
  have hget : srt.getD ((times.drop (times.length - 11)).length / 2) 0 ∈ srt := by
    rw [List.getD_eq_getElem?_getD, List.getElem?_eq_getElem hidx]
    exact List.getElem_mem hidx
  have hmem1 : srt.getD ((times.drop (times.length - 11)).length / 2) 0 ∈
      times.drop (times.length - 11) := mem_sortTimes hget
  have hmem2 : srt.getD ((times.drop (times.length - 11)).length / 2) 0 ∈ times :=
    (List.drop_sublist _ _).subset hmem1
  exact mem_le_getLastD times 0 hmono _ hmem2

end Hdr

namespace Hdr

/-- The oracles and constants of the header-acceptance context: genesis hash,
the stateless clock check, the RTT proof-of-work check (given the header and
the block-second), the retarget policy, the checkpoint table and the version
floor `VERSIONBITS_TOP_BITS`. -/
structure HdrEnv where
  genesisHash : Nat
  checkHeaderOK : Header → Bool
  powOK : Header → Nat → Bool
  nextWork : HdrIndex → Nat → Nat
  checkpointsEnabled : Bool
  checkpointOK : Nat → Nat → Bool
  lastCheckpointHeight : Option Nat
  versionTop : Int

/-- The outcomes of `ContextualCheckBlockHeader`, by reject reason. -/
inductive CtxResult where
  | ok
  | timeTooOld
  | highHash
  | badDiffBits
  | checkpointMismatch
  | forkedPreCheckpoint
  | obsoleteVersion
deriving DecidableEq, Repr

/-- Whether the chain forked before the last checkpoint. -/
def beforeLastCheckpoint (env : HdrEnv) (nHeight : Nat) : Bool :=
  match env.lastCheckpointHeight with
  | some hc => decide (nHeight < hc)
  | none => false

/-- `ContextualCheckBlockHeader` (src/src/main.cpp lines 2801–2849): the
genesis hash passes unconditionally; otherwise (against the asserted parent)
the timestamp must strictly exceed the parent's, the RTT proof of work and the
required difficulty must check out, the checkpoint table must agree, and the
version must not be obsolete.  A null parent for a non-genesis header trips
the assert, modelled as `none`.  This is the ladder once the parent is in
hand. -/
def contextualCheckAgainstPrev (env : HdrEnv) (block : Header)
    (prev : HdrIndex) (fCheckPOW : Bool) : CtxResult :=
  if block.nTime ≤ prev.nTime then .timeTooOld
  else if (fCheckPOW && !env.powOK block (block.nTime - prev.nTime)) = true then
    .highHash
  else if block.nBits ≠ env.nextWork prev block.nTime then .badDiffBits
  else if (env.checkpointsEnabled &&
      !env.checkpointOK (prev.nHeight + 1) block.hash) = true then
    .checkpointMismatch
  else if (env.checkpointsEnabled &&
      beforeLastCheckpoint env (prev.nHeight + 1)) = true then
    .forkedPreCheckpoint
  else if block.nVersion < env.versionTop then .obsoleteVersion
  else .ok

/-- `ContextualCheckBlockHeader` proper: genesis shortcut, asserted parent,
then the decision ladder against the parent. -/
def contextualCheckBlockHeader (env : HdrEnv) (block : Header)
    (prev? : Option HdrIndex) (fCheckPOW : Bool) : Option CtxResult :=
  if block.hash = env.genesisHash then some .ok
  else
    match prev? with
    | none => none
    | some prev => some (contextualCheckAgainstPrev env block prev fCheckPOW)

/-- The outcomes of `AcceptBlockHeader`. -/
inductive AcceptHdrResult where
  | okKnown (e : HdrIndex)
  | okNew (e : HdrIndex)
  | errDuplicateInvalid
  | errCheckHeader
  | errPrevNotFound
  | errPrevInvalid
  | errContextual (r : CtxResult)
deriving DecidableEq, Repr

/-- `mapBlockIndex.find(hash)` over an associative list. -/
def lookup (idx : List (Nat × HdrIndex)) (h : Nat) : Option HdrIndex :=
  (idx.find? (fun p => p.1 = h)).map (·.2)

/-- `AddToBlockIndex`: build the new entry linked to its parent, its chain
times extended by the header's timestamp. -/
def addToBlockIndex (block : Header) (prev? : Option HdrIndex) : HdrIndex :=
  { hash := block.hash
    nHeight := match prev? with | none => 0 | some p => p.nHeight + 1
    times := (match prev? with | none => [] | some p => p.times) ++ [block.nTime]
    nBits := block.nBits
    failed := false }

/-- `AcceptBlockHeader` (src/src/main.cpp lines 2893–2935): a known header
returns its entry unless failed; a fresh one passes the stateless check,
resolves its parent (the genesis hash skips resolution), inherits parent
failure, passes the contextual check and is added to the index. -/
def acceptBlockHeader (env : HdrEnv) (idx : List (Nat × HdrIndex))
    (block : Header) : Option AcceptHdrResult :=
  match lookup idx block.hash with
  | some pindex =>
    if pindex.failed = true then some .errDuplicateInvalid
    else some (.okKnown pindex)
  | none =>
    if env.checkHeaderOK block = false then some .errCheckHeader
    else if block.hash = env.genesisHash then
      match contextualCheckBlockHeader env block none true with
      | some .ok => some (.okNew (addToBlockIndex block none))
      | some r => some (.errContextual r)
      | none => none
    else
      match lookup idx block.hashPrevBlock with
      | none => some .errPrevNotFound
      | some prev =>
        if prev.failed = true then some .errPrevInvalid
        else
          match contextualCheckBlockHeader env block (some prev) true with
          | some .ok => some (.okNew (addToBlockIndex block (some prev)))
          | some r => some (.errContextual r)
          | none => none

/-- For a fresh non-genesis header with a known parent, `AcceptBlockHeader`
is the stateless check, the parent-failure check, and the contextual ladder
against the parent. -/
theorem acceptBlockHeader_fresh (env : HdrEnv) (idx : List (Nat × HdrIndex))
    (block : Header) (prev : HdrIndex)
    (hfresh : lookup idx block.hash = none)
    (hgen : block.hash ≠ env.genesisHash)
    (hprev : lookup idx block.hashPrevBlock = some prev) :
    acceptBlockHeader env idx block =
      (if env.checkHeaderOK block = false then some .errCheckHeader
       else if prev.failed = true then some .errPrevInvalid
       else
         match contextualCheckAgainstPrev env block prev true with
         | .ok => some (.okNew (addToBlockIndex block (some prev)))
         | r => some (.errContextual r)) := by
  unfold acceptBlockHeader contextualCheckBlockHeader
  rw [hfresh, hprev]
  simp only [hgen, if_false, ite_false]
  by_cases hch : env.checkHeaderOK block = false
  · rw [if_pos hch, if_pos hch]
  · rw [if_neg hch, if_neg hch]
    by_cases hpf : prev.failed = true
    · rw [if_pos hpf, if_pos hpf]
    · rw [if_neg hpf, if_neg hpf]
      cases hctx : contextualCheckAgainstPrev env block prev true <;> rfl

/-- C4: for every header that `AcceptBlockHeader` accepts fresh and whose
parent is known, the header's timestamp is strictly greater than the parent's
median-time-past (the median of the previous eleven block timestamps); and a
header whose timestamp is not greater than the parent's median-time-past is
rejected by the contextual check (`ContextualCheckBlockHeader` yields
`time-too-old`, so the header is never accepted).  The parent's chain has
monotone timestamps — the invariant the time rule itself maintains. -/
theorem acceptBlockHeader_time_beyond_mtp (env : HdrEnv)
    (idx : List (Nat × HdrIndex)) (block : Header) (prev : HdrIndex)
    (hfresh : lookup idx block.hash = none)
    (hgen : block.hash ≠ env.genesisHash)
    (hprev : lookup idx block.hashPrevBlock = some prev)
    (hne : prev.times ≠ [])
    (hmono : prev.times.Pairwise (· ≤ ·)) :
    (∀ e, acceptBlockHeader env idx block = some (.okNew e) →
        medianTimePast prev.times < block.nTime) ∧
      (block.nTime ≤ medianTimePast prev.times →
        contextualCheckBlockHeader env block (some prev) true = some .timeTooOld ∧
          ∀ e, acceptBlockHeader env idx block ≠ some (.okNew e)) := by
  have hmtple : medianTimePast prev.times ≤ prev.nTime :=
    medianTimePast_le_last prev.times hne hmono
  have hstep := acceptBlockHeader_fresh env idx block prev hfresh hgen hprev
  have hbridge : contextualCheckBlockHeader env block (some prev) true =
      some (contextualCheckAgainstPrev env block prev true) := by
    unfold contextualCheckBlockHeader
    rw [if_neg hgen]
  constructor
  · intro e hacc
    rw [hstep] at hacc
    by_cases hch : env.checkHeaderOK block = false
    · rw [if_pos hch] at hacc
      simp at hacc
    · rw [if_neg hch] at hacc
      by_cases hpf : prev.failed = true
      · rw [if_pos hpf] at hacc
        simp at hacc
      · rw [if_neg hpf] at hacc
        by_cases htime : block.nTime ≤ prev.nTime
        · have hctx : contextualCheckAgainstPrev env block prev true = .timeTooOld := by
            unfold contextualCheckAgainstPrev
            rw [if_pos htime]
          rw [hctx] at hacc
          simp at hacc
        · omega
  · intro htime
    have htimeprev : block.nTime ≤ prev.nTime := le_trans htime hmtple
    have hctx : contextualCheckAgainstPrev env block prev true = .timeTooOld := by
      unfold contextualCheckAgainstPrev
      rw [if_pos htimeprev]
    refine ⟨by rw [hbridge, hctx], ?_⟩
    intro e
    rw [hstep]
    by_cases hch : env.checkHeaderOK block = false
    · rw [if_pos hch]
      simp
    · rw [if_neg hch]
      by_cases hpf : prev.failed = true
      · rw [if_pos hpf]
        simp
      · rw [if_neg hpf]
        rw [hctx]
        simp

/-- Witness for C4: a fresh header at time 120 on a parent chain with times
[100, 110] is accepted, so its time exceeds the parent's median-time-past. -/
theorem acceptBlockHeader_time_beyond_mtp_witness :
    medianTimePast [100, 110] < 120 :=
  (acceptBlockHeader_time_beyond_mtp
    ⟨0, fun _ => true, fun _ _ => true, fun _ _ => 0x207fffff, false,
      fun _ _ => true, none, 0x20000000⟩
    [(0, ⟨0, 0, [100], 0x207fffff, false⟩),
      (1, ⟨1, 1, [100, 110], 0x207fffff, false⟩)]
    ⟨0x20000000, 1, 120, 0x207fffff, 2⟩ ⟨1, 1, [100, 110], 0x207fffff, false⟩
    (by decide) (by decide) (by decide) (by decide) (by decide)).1
    ⟨2, 2, [100, 110, 120], 0x207fffff, false⟩ (by decide)

end Hdr

/-! ## Next-block download selection (FindNextBlocksToDownload, src/src/main.cpp)

Block-index entries are structural references: `root` models an entry with
null `pprev`, `link` an entry with its parent chain embedded; pointer
equality becomes structural equality.  `CBlockIndex::GetAncestor` walks skip
pointers in the source purely as an optimization; the embedding walks
parents one at a time, which computes the same ancestor.  `BLOCK_DOWNLOAD_WINDOW`
(main.h is not the translation unit at hand) is a parameter. -/

namespace Download

/-- The fields of a block-index entry this path reads. -/
structure DInfo where
  hash : Nat
  nHeight : Nat
  nChainWork : Nat
  haveData : Bool
  validTree : Bool
  nChainTx : Nat
deriving DecidableEq, Repr

/-- A block-index entry with its ancestry: `root` has a null `pprev`. -/
inductive DBlock where
  | root (info : DInfo)
  | link (info : DInfo) (pprev : DBlock)
deriving DecidableEq, Repr

/-- The entry's own fields. -/
def DBlock.info : DBlock → DInfo
  | .root i => i
  | .link i _ => i

/-- `CBlockIndex::GetAncestor(height)`: walk back to the ancestor at the
given height, null when the height is not on the ancestry. -/
def DBlock.getAncestor : DBlock → Nat → Option DBlock
  | .root i, h => if i.nHeight = h then some (.root i) else none
  | .link i p, h => if i.nHeight = h then some (.link i p) else p.getAncestor h

/-- The synchronized backward walk of `LastCommonAncestor` once both sides
stand at equal height. -/
def lcaWalk : DBlock → DBlock → Option DBlock
  | .root i, b => if DBlock.root i = b then some (.root i) else none
  | .link i p, b =>
    if DBlock.link i p = b then some (.link i p)
    else
      match b with
      | .root _ => none
      | .link _ q => lcaWalk p q

/-- Modelled from the spec: `LastCommonAncestor` (chain.cpp is not among the
sources at hand) per §4.K "our best guess at the deepest common ancestor":
bring both entries to the same height, then walk both back in lockstep until
they meet. -/
def lastCommonAncestor (pa pb : DBlock) : Option DBlock :=
  match (if pb.info.nHeight < pa.info.nHeight then pa.getAncestor pb.info.nHeight
         else some pa),
      (if pa.info.nHeight < pb.info.nHeight then pb.getAncestor pa.info.nHeight
       else some pb) with
  | some a, some b => lcaWalk a b
  | _, _ => none

/-- `CChain::Contains`: the entry at the block's height on the active chain
is that very block. -/
def containsChain (chain : List DBlock) (b : DBlock) : Bool :=
  decide (chain.get? b.info.nHeight = some b)

/-- The chain view and collaborators the selector reads: the active chain
(index is height), `BLOCK_DOWNLOAD_WINDOW`, the global in-flight hash set,
the peer's thin-block deliveries in progress, and the peers holding a queued
download of a hash. -/
structure DlEnv where
  chain : List DBlock
  window : Nat
  inFlight : List Nat
  thinWorking : List Nat
  nodesWithQueued : Nat → List Nat

/-- Per-peer download state: the peer's claimed tip and the deepest block
known to be common with it. -/
structure PeerState where
  bestKnown : Option DBlock
  lastCommon : Option DBlock
deriving DecidableEq, Repr

/-- The last up-to-`n` blocks of an ancestry ending at the given block, in
ascending height order — the `vToFetch` batch. -/
def backWalk : DBlock → Nat → List DBlock
  | _, 0 => []
  | .root i, _ + 1 => [DBlock.root i]
  | .link i p, n + 1 => backWalk p n ++ [DBlock.link i p]

/-- Outcome of scanning one `vToFetch` batch: `done` is the function
returning (with the staller set it assigned), `more` continues the outer
walk. -/
inductive StepOut where
  | done (vB : List DBlock) (staller : List Nat) (lastC : Option DBlock)
  | more (vB : List DBlock) (waiting : List Nat) (lastC : Option DBlock)
deriving DecidableEq, Repr

/-- The inner `for` of `FindNextBlocksToDownload` over one batch: an invalid
entry aborts; a downloaded or active-chain entry advances the last-common
pointer when its chain transactions are known; a fetchable entry beyond the
window returns (naming stallers when nothing was emitted); otherwise it is
emitted until `count` is reached; an in-flight entry seeds the waiting set. -/
def innerLoop (env : DlEnv) (nodeid count windowEnd : Nat) :
    List DBlock → List DBlock → List Nat → Option DBlock → StepOut
  | [], vB, waiting, lastC => .more vB waiting lastC
  | pindex :: rest, vB, waiting, lastC =>
    if pindex.info.validTree = false then .done vB [] lastC
    else if pindex.info.haveData = true || containsChain env.chain pindex then
      innerLoop env nodeid count windowEnd rest vB waiting
        (if pindex.info.nChainTx ≠ 0 then some pindex else lastC)
    else if !(env.inFlight.contains pindex.info.hash ||
        env.thinWorking.contains pindex.info.hash) then
      if windowEnd < pindex.info.nHeight then
        if vB.length = 0 ∧ ¬nodeid ∈ waiting then .done vB waiting lastC
        else .done vB [] lastC
      else if (vB ++ [pindex]).length = count then .done (vB ++ [pindex]) [] lastC
      else innerLoop env nodeid count windowEnd rest (vB ++ [pindex]) waiting lastC
    else if waiting.isEmpty then
      innerLoop env nodeid count windowEnd rest vB
        (env.nodesWithQueued pindex.info.hash) lastC
    else innerLoop env nodeid count windowEnd rest vB waiting lastC

/-- The outer `while` of `FindNextBlocksToDownload`: fetch batches of up to
128 ancestors (or the remaining need) of the peer's best-known block until
the walk reaches `nMaxHeight` or the inner scan returns. -/
def outerLoop (env : DlEnv) (nodeid count : Nat) (bestKnown : DBlock)
    (windowEnd nMaxHeight : Nat) :
    DBlock → List DBlock → List Nat → Option DBlock → Nat →
      Option (List DBlock × List Nat × Option DBlock)
  | _, _, _, _, 0 => none
  | walk, vB, waiting, lastC, fuel + 1 =>
    if walk.info.nHeight < nMaxHeight then
      match bestKnown.getAncestor
          (walk.info.nHeight +
            min (nMaxHeight - walk.info.nHeight) (max (count - vB.length) 128)) with
      | none => none
      | some walkNext =>
        match innerLoop env nodeid count windowEnd
            (backWalk walkNext
              (min (nMaxHeight - walk.info.nHeight) (max (count - vB.length) 128)))
            vB waiting lastC with
        | .done vB' staller lastC' => some (vB', staller, lastC')
        | .more vB' waiting' lastC' =>
          outerLoop env nodeid count bestKnown windowEnd nMaxHeight
            walkNext vB' waiting' lastC' fuel
    else some (vB, [], lastC)

/-- The body of `FindNextBlocksToDownload` once the peer's best-known block
and our tip are in hand: nothing for a peer with less chain work; bootstrap
and refresh the last-common pointer; nothing when it already is the best
known; otherwise run the window-bounded walk. -/
def findNextBody (env : DlEnv) (nodeid count fuel : Nat) (ps : PeerState)
    (bk tip : DBlock) : Option (List DBlock × List Nat × PeerState) :=
  if bk.info.nChainWork < tip.info.nChainWork then some ([], [], ps)
  else
    match (match ps.lastCommon with
           | some lc => some lc
           | none => env.chain.get? (min bk.info.nHeight (env.chain.length - 1))) with
    | none => none
    | some lc0 =>
      match lastCommonAncestor lc0 bk with
      | none => none
      | some lc =>
        if lc = bk then some ([], [], { ps with lastCommon := some lc })
        else
          match outerLoop env nodeid count bk (lc.info.nHeight + env.window)
              (min bk.info.nHeight (lc.info.nHeight + env.window + 1))
              lc [] [] (some lc) fuel with
          | none => none
          | some (vB, staller, lastC') =>
            some (vB, staller, { ps with lastCommon := lastC' })

/-- `FindNextBlocksToDownload` (src/src/main.cpp lines 370–456): zero
requested blocks or an unknown peer tip yield nothing; the tip of an empty
chain is a null dereference, modelled as divergence. -/
def findNextBlocksToDownload (env : DlEnv) (nodeid count : Nat) (ps : PeerState)
    (fuel : Nat) : Option (List DBlock × List Nat × PeerState) :=
  if count = 0 then some ([], [], ps)
  else
    match ps.bestKnown with
    | none => some ([], [], ps)
    | some bk =>
      match env.chain.getLast? with
      | none => none
      | some tip => findNextBody env nodeid count fuel ps bk tip

end Download

namespace Download

/-- C9 counterexample fixture: genesis. -/
def cexG : DBlock := .root ⟨0, 0, 1, true, true, 1⟩

/-- C9 counterexample fixture: the active tip at height 1, chain work 2. -/
def cexA1 : DBlock := .link ⟨1, 1, 2, true, true, 2⟩ cexG

/-- C9 counterexample fixture: the peer's fork tip at height 1 with chain
work equal to the active tip's, its data not yet downloaded. -/
def cexB1 : DBlock := .link ⟨2, 1, 2, false, true, 0⟩ cexG

/-- C9 counterexample fixture: the chain view with nothing in flight. -/
def cexEnv : DlEnv :=
  { chain := [cexG, cexA1]
    window := 1024
    inFlight := []
    thinWorking := []
    nodesWithQueued := fun _ => [] }

/-- C9 is false as stated: a peer whose best-known block has chain work
equal to (hence not exceeding) the active tip's still gets its fork block
selected for download. -/
theorem findNextBlocksToDownload_equal_work_cex :
    cexEnv.chain.getLast? = some cexA1 ∧
      cexB1.info.nChainWork ≤ cexA1.info.nChainWork ∧
      findNextBlocksToDownload cexEnv 0 16 ⟨some cexB1, none⟩ 10 =
        some ([cexB1], [], ⟨some cexB1, some cexG⟩) := by
  refine ⟨by decide, by decide, by decide⟩

/-- C9 (amended): `find_next_blocks_to_download` returns no blocks whenever
the peer's best-known block has chain work strictly less than the active
tip's chain work (the code tests `<`, not `≤`; at equal work the walk runs
and can return fork blocks, as the counterexample shows). -/
theorem findNextBlocksToDownload_less_work_nothing (env : DlEnv)
    (nodeid count fuel : Nat) (ps : PeerState) (bk tip : DBlock)
    (hbk : ps.bestKnown = some bk)
    (htip : env.chain.getLast? = some tip)
    (hlt : bk.info.nChainWork < tip.info.nChainWork) :
    findNextBlocksToDownload env nodeid count ps fuel = some ([], [], ps) := by
  by_cases hc : count = 0
  · unfold findNextBlocksToDownload
    rw [if_pos hc]
  · have hstep : findNextBlocksToDownload env nodeid count ps fuel =
        findNextBody env nodeid count fuel ps bk tip := by
      unfold findNextBlocksToDownload
      rw [if_neg hc, hbk, htip]
    rw [hstep]
    unfold findNextBody
    rw [if_pos hlt]

/-- Witness for the amended C9: a peer one unit of work behind the tip gets
nothing. -/
theorem findNextBlocksToDownload_less_work_nothing_witness :
    findNextBlocksToDownload cexEnv 0 16
        ⟨some (DBlock.root ⟨3, 0, 1, false, true, 0⟩), none⟩ 10 =
      some ([], [], ⟨some (DBlock.root ⟨3, 0, 1, false, true, 0⟩), none⟩) :=
  findNextBlocksToDownload_less_work_nothing cexEnv 0 16 10
    ⟨some (DBlock.root ⟨3, 0, 1, false, true, 0⟩), none⟩
    (DBlock.root ⟨3, 0, 1, false, true, 0⟩) cexA1 rfl (by decide) (by decide)

end Download

/-! ## The reorg engine (FindMostWorkChain / ActivateBestChain, src/src/main.cpp)

Block-index entries live in an arena keyed by identifier (the spec's §9
arena-and-indices shape); `pprev` is an optional identifier, the active chain
is the list of identifiers ordered by height, and `setBlockIndexCandidates`
is a list with set semantics whose order is recovered through the §3
comparator.  Status bits become Booleans; the dirty set, logging,
`pindexBestInvalid` (written but never read on these paths) and the mempool
and notification side effects of connecting/disconnecting are outside the
properties at stake and are omitted.  Disk reads, `ConnectBlock` validation
and flushing enter as an oracle; loops take fuel and return `none` when it
runs out (or on a null dereference the source would crash on), so a `some`
result is a faithfully completed run.  The embedding models uninterrupted
runs: the shutdown and thread-interruption polls of `ActivateBestChain` are
concurrency outside a sequential semantics. -/

namespace Chain

/-- A block-index entry: parent link, height, header time, own proof
(`GetBlockProof`), cumulative work, arrival sequence, and the status bits
this engine reads and writes. -/
structure Entry where
  prev : Option Nat
  nHeight : Nat
  nTime : Nat
  work : Nat
  nChainWork : Nat
  nSequenceId : Nat
  haveData : Bool
  failedValid : Bool
  failedChild : Bool
  nChainTx : Nat
deriving DecidableEq, Repr

/-- The engine state: the arena, the candidate set, the active chain
(genesis first) and `mapBlocksUnlinked` (parent key, child). -/
structure St where
  arena : List (Nat × Entry)
  candidates : List Nat
  chain : List Nat
  unlinked : List (Option Nat × Nat)
deriving DecidableEq, Repr

/-- First-match association lookup (`std::map::find` over the arena list). -/
def lookupArena : List (Nat × Entry) → Nat → Option Entry
  | [], _ => none
  | p :: t, j => if p.1 = j then some p.2 else lookupArena t j

/-- Arena lookup by identifier. -/
def St.find (st : St) (id : Nat) : Option Entry :=
  lookupArena st.arena id

/-- Update the entry of one identifier in place. -/
def mapEntry (st : St) (id : Nat) (f : Entry → Entry) : St :=
  { st with arena := st.arena.map (fun p => if p.1 = id then (p.1, f p.2) else p) }

/-- `setBlockIndexCandidates.erase`. -/
def eraseCandidate (st : St) (id : Nat) : St :=
  { st with candidates := st.candidates.filter (fun c => c ≠ id) }

/-- The comparator's observation of an entry: its identity (pointer), its own
work, its parent's cumulative work and its sequence id. -/
def view (st : St) (id : Nat) : Cmp.CBlockIndexRef :=
  match st.find id with
  | none => ⟨id, 0, none, 0⟩
  | some e =>
    ⟨id, e.nChainWork, e.prev.bind (fun p => (st.find p).map (·.nChainWork)),
      e.nSequenceId⟩

/-- The §3 order between two arena identifiers. -/
def cmpIds (st : St) (a b : Nat) : Bool :=
  Cmp.cBlockIndexWorkComparator (view st a) (view st b)

/-- The running maximum of a candidate list under the §3 order. -/
def foldMax (st : St) : Nat → List Nat → Nat
  | c, [] => c
  | c, y :: ys => foldMax st (if cmpIds st c y = true then y else c) ys

/-- `setBlockIndexCandidates.rbegin()`: the greatest candidate under the
comparator. -/
def maxCandidate (st : St) : Option Nat :=
  match st.candidates with
  | [] => none
  | c :: cs => some (foldMax st c cs)

/-- `chainActive.Contains`: the chain's entry at the block's height is the
block itself. -/
def containsId (st : St) (id : Nat) : Bool :=
  match st.find id with
  | none => false
  | some e => decide (st.chain.get? e.nHeight = some id)

/-- An entry's cumulative work (dereference of `->nChainWork`). -/
def chainWorkOf (st : St) (id : Nat) : Nat :=
  match st.find id with
  | some e => e.nChainWork
  | none => 0

/-- `chainActive.Tip()`. -/
def tipOf (st : St) : Option Nat := st.chain.getLast?

/-- Modelled from the spec: `CChain::FindFork` (chain.cpp is not among the
sources at hand) per §4.C — walk the block back along its parents until the
chain contains it; null when the walk exhausts its ancestry. -/
def findFork (st : St) : Option Nat → Nat → Option (Option Nat)
  | none, _ => some none
  | some _, 0 => none
  | some id, fuel + 1 =>
    if containsId st id = true then some (some id)
    else
      match st.find id with
      | none => none
      | some e => findFork st e.prev fuel

/-- `chainActive.Next(fork)->nTime`: the time of the first active-chain
block after the fork point (0 on the null dereferences the guarded source
never reaches). -/
def nextTime (st : St) (f : Nat) : Nat :=
  match st.find f with
  | none => 0
  | some e =>
    match st.chain.get? (e.nHeight + 1) with
    | none => 0
    | some nid =>
      match st.find nid with
      | none => 0
      | some ne => ne.nTime

/-- Modelled from the spec: `GetPenalizedWork` is declared in src/src/pow.h
and used by `FindMostWorkChain`, but its translation unit is not among the
sources at hand.  Per §4.J the block's effective work is its work divided by
`2^k`, `k = max(0, log2((block.time - activeForkStartTime) / penaltyWindow))`
with `penaltyWindow` a policy constant, here the parameter `pw`.  With
`activeForkStartTime = 0` — the value the caller passes when the candidate
extends the tip — no penalty applies ("No penalty, receive time doesn't
matter", src/src/test/chain_tests.cpp).  `Nat` subtraction and `Nat.log2`
realize the `max(0, ·)` clamp for blocks at or before the fork start. -/
def getPenalizedWork (pw : Nat) (e : Entry) (activeForkStartTime : Nat) : Nat :=
  if activeForkStartTime = 0 then e.work
  else e.work / 2 ^ Nat.log2 ((e.nTime - activeForkStartTime) / pw)

/-- Mark an entry `BLOCK_FAILED_CHILD`. -/
def markFailedChild (st : St) (id : Nat) : St :=
  mapEntry st id (fun e => { e with failedChild := true })

/-- Mark an entry `BLOCK_FAILED_VALID`. -/
def markFailedValid (st : St) (id : Nat) : St :=
  mapEntry st id (fun e => { e with failedValid := true })

/-- `mapBlocksUnlinked.insert(pindexFailed->pprev, pindexFailed)`. -/
def addUnlinked (st : St) (id : Nat) : St :=
  { st with unlinked := st.unlinked ++ [((st.find id).bind (fun e => e.prev), id)] }

/-- The erase loop of `FindMostWorkChain` on a failed or data-less ancestor:
walk the candidate branch (`visited`, candidate first) marking
`BLOCK_FAILED_CHILD` (failed chain) or recording the unlinked pair (missing
data) and erasing each from the candidates, then erase the offending
ancestor itself. -/
def removeBranch (st : St) (fFailedChain : Bool) (visited : List Nat)
    (testId : Nat) : St :=
  eraseCandidate
    (visited.foldl
      (fun s v =>
        eraseCandidate (if fFailedChain then markFailedChild s v else addUnlinked s v) v)
      st)
    testId

/-- Result of the ancestor walk: the state (mutated only on the
invalid-ancestor exit, where `res` is `none`), or the accumulated penalized
parent work and the active-chain block the walk stopped at. -/
structure WalkRes where
  st : St
  res : Option (Nat × Option Nat)
deriving Repr

/-- The inner `while` of `FindMostWorkChain`: walk from the candidate toward
the active chain; a failed or data-less entry removes the branch from the
candidates; otherwise every strict ancestor contributes its penalized work. -/
def fmwcWalk (pw newId afst : Nat) :
    St → Option Nat → Nat → List Nat → Nat → Option WalkRes
  | _, _, _, _, 0 => none
  | st, none, acc, _, _ + 1 => some ⟨st, some (acc, none)⟩
  | st, some cur, acc, visited, fuel + 1 =>
    if containsId st cur = true then some ⟨st, some (acc, some cur)⟩
    else
      match st.find cur with
      | none => none
      | some e =>
        if ((e.failedValid || e.failedChild) || !e.haveData) = true then
          some ⟨removeBranch st (e.failedValid || e.failedChild) visited cur, none⟩
        else
          fmwcWalk pw newId afst st e.prev
            (if cur ≠ newId then acc + getPenalizedWork pw e afst else acc)
            (visited ++ [cur]) fuel

/-- `activeForkStartTime` as `FindMostWorkChain` computes it before the
walk: zero unless the candidate genuinely forks off (a fork point distinct
from the tip), in which case it is the time of the first active-chain block
past the fork point. -/
def fmwcAfst (st : St) : Option Nat → Option Nat → Nat
  | some f, some t => if f ≠ t then nextTime st f else 0
  | _, _ => 0

/-- The synthetic parent's cumulative work: the accumulated penalized
branch work plus the chain work of the active-chain block the walk stopped
at, if any. -/
def synthPrevWork (st : St) (acc : Nat) : Option Nat → Nat
  | some t => acc + chainWorkOf st t
  | none => acc

/-- `FindMostWorkChain` (src/src/main.cpp lines 2228–2309): pop the greatest
candidate; drop branches with failed or data-less ancestors; when the
candidate does not extend the tip, rebuild its parent's chain work with the
late-fork penalty (a synthetic parent carrying the penalized work) and keep
the candidate only if it still outranks the tip, else erase it and try the
next best. -/
def findMostWorkChain (pw : Nat) : St → Nat → Nat → Option (St × Option Nat)
  | _, _, 0 => none
  | st, wfuel, fuel + 1 =>
    match maxCandidate st with
    | none => some (st, none)
    | some newId =>
      match findFork st (some newId) wfuel with
      | none => none
      | some fork? =>
        match fmwcWalk pw newId (fmwcAfst st fork? (tipOf st))
            st (some newId) 0 [] wfuel with
        | none => none
        | some ⟨st2, none⟩ => findMostWorkChain pw st2 wfuel fuel
        | some ⟨st2, some (acc, test?)⟩ =>
          match tipOf st with
          | none => some (st2, some newId)
          | some tip =>
            if newId = tip then some (st2, some newId)
            else
              match (st2.find newId).bind (fun e => e.prev) with
              | none => some (st2, none)
              | some _ =>
                if Cmp.cBlockIndexWorkComparator (view st2 tip)
                    { view st2 newId with
                      prevChainWork := some (synthPrevWork st2 acc test?) } = true then
                  some (st2, some newId)
                else findMostWorkChain pw (eraseCandidate st2 newId) wfuel fuel

/-- `PruneBlockIndexCandidates` (src/src/main.cpp lines 2311–2321): delete
every candidate that sorts strictly before the current tip. -/
def pruneBlockIndexCandidates (st : St) : St :=
  match tipOf st with
  | none => st
  | some tip =>
    { st with candidates := st.candidates.filter (fun x => !cmpIds st x tip) }

/-- The oracle for the effectful block operations: `ConnectBlock` (with the
validation state's corruption flag on failure), `DisconnectBlock`/disk reads,
and the periodic flush. -/
structure ChainIO where
  connect : Nat → Nat
  connectCorruption : Nat → Bool
  disconnectOK : Nat → Bool
  flushOK : Bool

/-- `ConnectTip` outcome codes of the oracle: 0 connects, 1 is an invalid
block, anything else a system error. -/
def ChainIO.connectOutcome (io : ChainIO) (id : Nat) : Nat := io.connect id

/-- A loop result: normal completion with a flag, or the `return false`
path. -/
inductive LoopRes where
  | ok (st : St) (flag : Bool)
  | fail (st : St)
deriving Repr

/-- `DisconnectTip`: read and undo the tip block (oracle), then
`SetTip(tip->pprev)`; failure is the abort path.  The mempool resurrection
and wallet notifications are outside this model. -/
def disconnectTip (io : ChainIO) (st : St) : Option St :=
  match tipOf st with
  | none => none
  | some tip =>
    if io.disconnectOK tip = true then some { st with chain := st.chain.dropLast }
    else none

/-- `ConnectTip`: after its `assert(pindexNew->pprev == chainActive.Tip())`
(a violated assert aborts, modelled as divergence), connect the block
(oracle); on success the tip advances; on an invalid block,
`InvalidBlockFound` marks `FAILED_VALID` and erases the candidate unless
corruption is possible (the peer bookkeeping is the `Inval` model); on a
system error the step fails. -/
def connectTip (io : ChainIO) (st : St) (id : Nat) : Option LoopRes :=
  match st.find id with
  | none => none
  | some e =>
    if e.prev ≠ tipOf st then none
    else if io.connectOutcome id = 0 then
      some (.ok { st with chain := st.chain ++ [id] } false)
    else if io.connectOutcome id = 1 then
      some (.ok (if io.connectCorruption id = true then st
           else eraseCandidate (markFailedValid st id) id) true)
    else some (.fail st)

/-- The disconnect loop of `ActivateBestChainStep`: pop tips down to the
fork point, flagging that blocks were disconnected. -/
def disconnectLoop (io : ChainIO) (fork? : Option Nat) :
    St → Bool → Nat → Option LoopRes
  | _, _, 0 => none
  | st, fDisc, fuel + 1 =>
    match tipOf st with
    | none => some (.ok st fDisc)
    | some tip =>
      if some tip = fork? then some (.ok st fDisc)
      else
        match disconnectTip io st with
        | none => some (.fail st)
        | some st2 => disconnectLoop io fork? st2 true fuel

/-- The ancestors of `mostWork` strictly above the stop height, ascending —
the blocks `ActivateBestChainStep` will connect (its 32-block batching
visits exactly this sequence in this order). -/
def pathAbove (st : St) (stopHeight : Int) : Option Nat → Nat → Option (List Nat)
  | none, _ => some []
  | some _, 0 => none
  | some id, fuel + 1 =>
    match st.find id with
    | none => none
    | some e =>
      if (e.nHeight : Int) = stopHeight then some []
      else (pathAbove st stopHeight e.prev fuel).map (fun l => l ++ [id])

/-- The "we're in a better position" check after a successful connect:
a null old tip, or the new tip's cumulative work exceeding the old tip's. -/
def betterThanOld (st : St) (oldTip? : Option Nat) : Bool :=
  match oldTip? with
  | none => true
  | some ot =>
    match tipOf st with
    | none => false
    | some t => decide (chainWorkOf st ot < chainWorkOf st t)

/-- The connect loop of `ActivateBestChainStep`: connect each block in
order; an invalid block sets `fInvalidFound` and stops; a system error fails
the step; after each success the candidates are pruned and the loop pauses
once the position beats the old tip (to release the lock). -/
def connectLoop (io : ChainIO) (oldTip? : Option Nat) : St → List Nat → Option LoopRes
  | st, [] => some (.ok st false)
  | st, id :: rest =>
    match connectTip io st id with
    | none => none
    | some (.fail st2) => some (.fail st2)
    | some (.ok st2 flag) =>
      if flag = true then some (.ok st2 true)
      else
        if betterThanOld (pruneBlockIndexCandidates st2) oldTip? = true then
          some (.ok (pruneBlockIndexCandidates st2) false)
        else connectLoop io oldTip? (pruneBlockIndexCandidates st2) rest

/-- `ActivateBestChainStep` (src/src/main.cpp lines 2327–2397): find the
fork, disconnect down to it, then connect toward `mostWork`; the returned
flag is `fInvalidFound`.  The mempool maintenance and fork-warning calls at
the end are outside this model. -/
def activateBestChainStep (io : ChainIO) (wfuel : Nat) (st : St) (mostWork : Nat) :
    Option LoopRes :=
  match findFork st (some mostWork) wfuel with
  | none => none
  | some fork? =>
    match disconnectLoop io fork? st false (st.chain.length + 1) with
    | none => none
    | some (.fail st1) => some (.fail st1)
    | some (.ok st1 _) =>
      match pathAbove st1
          (match fork?.bind (fun f => st1.find f) with
           | some e => (e.nHeight : Int)
           | none => -1)
          (some mostWork) wfuel with
      | none => none
      | some path => connectLoop io (tipOf st) st1 path

/-- One most-work computation of the loop: the cached value if there is
one, else a fresh `FindMostWorkChain`. -/
def abcCompute (pw wfuel : Nat) (st : St) : Option Nat → Option (St × Option Nat)
  | some m => some (st, some m)
  | none => findMostWorkChain pw st wfuel wfuel

/-- The `do … while` of `ActivateBestChain` (src/src/main.cpp lines
2404–2483): with no cached most-work tip compute one; stop successfully when
there is none or it is the tip; otherwise run a step — a failed step fails
the call, an invalid find clears the cache, and reaching the most-work tip
leaves the loop and flushes. -/
def abcLoop (io : ChainIO) (pw wfuel : Nat) : St → Option Nat → Nat → Option (St × Bool)
  | _, _, 0 => none
  | st, cached, fuel + 1 =>
    match abcCompute pw wfuel st cached with
    | none => none
    | some (st2, none) => some (st2, true)
    | some (st2, some mw) =>
      if tipOf st2 = some mw then some (st2, true)
      else
        match activateBestChainStep io wfuel st2 mw with
        | none => none
        | some (.fail st3) => some (st3, false)
        | some (.ok st3 fInvalid) =>
          if fInvalid = true then abcLoop io pw wfuel st3 none fuel
          else if tipOf st3 = some mw then
            if io.flushOK = true then some (st3, true) else some (st3, false)
          else abcLoop io pw wfuel st3 (some mw) fuel

/-- `ActivateBestChain`: the loop entered with an empty most-work cache. -/
def activateBestChain (io : ChainIO) (pw wfuel fuel : Nat) (st : St) :
    Option (St × Bool) :=
  abcLoop io pw wfuel st none fuel

end Chain

namespace Chain

/-- The skeleton of an entry: the fields the well-formedness conditions and
the comparator read (parent link, height, cumulative work, sequence id). -/
def skel (e : Entry) : Option Nat × Nat × Nat × Nat :=
  (e.prev, e.nHeight, e.nChainWork, e.nSequenceId)

/-- The parent-link condition of one arena entry of height `hgt` and
cumulative work `w`: a parentless entry is the chain's root at height zero;
a linked entry sits one above its parent with strictly more cumulative
work. -/
def linkOK (st : St) (id : Nat) (hgt w : Nat) : Option Nat → Bool
  | none => decide (st.chain.get? 0 = some id) && decide (hgt = 0)
  | some p =>
    match st.find p with
    | some pe => decide (pe.nHeight + 1 = hgt) && decide (pe.nChainWork < w)
    | none => false

/-- Structural soundness of one arena entry: positive cumulative work and a
sound parent link (spec invariants 1, 2 and 6; positivity from
`GetBlockProof ≥ 1`). -/
def entryOK (st : St) (id : Nat) (e : Entry) : Bool :=
  decide (0 < e.nChainWork) && linkOK st id e.nHeight e.nChainWork e.prev

/-- One active-chain cell: the element resolves, sits at height `k` and
links to the previous element. -/
def chainCell (st : St) (k : Nat) (prevId : Option Nat) (x : Nat) : Bool :=
  match st.find x with
  | some e => decide (e.nHeight = k) && decide (e.prev = prevId)
  | none => false

/-- Structural soundness of the active chain from height `k` with the given
parent identifier. -/
def chainOK (st : St) : Nat → List Nat → Option Nat → Bool
  | _, [], _ => true
  | k, id :: rest, prevId =>
    chainCell st k prevId id && chainOK st (k + 1) rest (some id)

/-- Well-formedness of an engine state: a nonempty, structurally sound
active chain, structurally sound arena entries, and candidates resolving in
the arena (`setBlockIndexCandidates` holds `CBlockIndex*`, spec §2). -/
def wfB (st : St) : Bool :=
  !st.chain.isEmpty && chainOK st 0 st.chain none &&
    st.arena.all (fun p => entryOK st p.1 p.2) &&
    st.candidates.all (fun c => (st.find c).isSome)

/-- Well-formedness as a proposition. -/
def WF (st : St) : Prop := wfB st = true

end Chain

namespace Chain

/-- The comparator view of an identifier carries that identifier. -/
theorem view_ident (st : St) (a : Nat) : (view st a).ident = a := by
  unfold view
  cases st.find a <;> rfl

/-- The §3 order between identifiers is irreflexive. -/
theorem cmpIds_irrefl (st : St) (a : Nat) : cmpIds st a a = false :=
  Cmp.comparator_irrefl _

/-- The §3 order between identifiers is asymmetric. -/
theorem cmpIds_asymm {st : St} {a b : Nat} (h : cmpIds st a b = true) :
    cmpIds st b a = false :=
  Cmp.comparator_asymm h

/-- The §3 order between identifiers is transitive. -/
theorem cmpIds_trans {st : St} {a b c : Nat} (hab : cmpIds st a b = true)
    (hbc : cmpIds st b c = true) : cmpIds st a c = true :=
  Cmp.comparator_trans hab hbc

/-- Distinct identifiers are strictly ordered one way or the other. -/
theorem cmpIds_total (st : St) {a b : Nat} (h : a ≠ b) :
    cmpIds st a b = true ∨ cmpIds st b a = true := by
  refine Cmp.comparator_total ?_
  rw [view_ident, view_ident]
  exact h

/-- Keyed lookup through a keyed in-place map. -/
theorem lookupArena_mapKeyed (id : Nat) (f : Entry → Entry) (j : Nat) :
    ∀ (l : List (Nat × Entry)),
      lookupArena (l.map (fun p => if p.1 = id then (p.1, f p.2) else p)) j =
        (lookupArena l j).map (fun e => if j = id then f e else e) := by
  intro l
  induction l with
  | nil => rfl
  | cons p t ih =>
    by_cases hid : p.1 = id
    · simp only [List.map_cons, if_pos hid, lookupArena]
      by_cases hj : p.1 = j
      · rw [if_pos hj, if_pos hj]
        simp only [Option.map_some']
        rw [if_pos (by omega : j = id)]
      · rw [if_neg hj, if_neg hj]
        exact ih
    · simp only [List.map_cons, if_neg hid, lookupArena]
      by_cases hj : p.1 = j
      · rw [if_pos hj, if_pos hj]
        simp only [Option.map_some']
        rw [if_neg (by omega : ¬j = id)]
      · rw [if_neg hj, if_neg hj]
        exact ih

/-- Arena lookup after an in-place entry update. -/
theorem find_mapEntry (st : St) (id : Nat) (f : Entry → Entry) (j : Nat) :
    (mapEntry st id f).find j =
      (st.find j).map (fun e => if j = id then f e else e) := by
  unfold mapEntry St.find
  exact lookupArena_mapKeyed id f j st.arena

/-- A status-bit update: the skeleton fields are untouched. -/
def statusLike (f : Entry → Entry) : Prop :=
  ∀ e, skel (f e) = skel e ∧ (f e).nTime = e.nTime ∧ (f e).work = e.work ∧
    (f e).haveData = e.haveData ∧ (f e).nChainTx = e.nChainTx

/-- Marking `FAILED_CHILD` is a status-bit update. -/
theorem statusLike_failedChild :
    statusLike (fun e => { e with failedChild := true }) := by
  intro e
  exact ⟨rfl, rfl, rfl, rfl, rfl⟩

/-- Marking `FAILED_VALID` is a status-bit update. -/
theorem statusLike_failedValid :
    statusLike (fun e => { e with failedValid := true }) := by
  intro e
  exact ⟨rfl, rfl, rfl, rfl, rfl⟩

/-- A status-bit update leaves every comparator view unchanged. -/
theorem view_mapEntry (st : St) (id : Nat) (f : Entry → Entry)
    (hf : statusLike f) (j : Nat) : view (mapEntry st id f) j = view st j := by
  unfold view
  rw [find_mapEntry]
  cases hfind : st.find j with
  | none => rfl
  | some e =>
    simp only [Option.map_some']
    have hskel := (hf e).1
    unfold skel at hskel
    by_cases hj : j = id
    · rw [if_pos hj]
      have hprev : (f e).prev = e.prev := congrArg Prod.fst hskel
      have hwork : (f e).nChainWork = e.nChainWork := congrArg (fun q => q.2.2.1) hskel
      have hseq : (f e).nSequenceId = e.nSequenceId := congrArg (fun q => q.2.2.2) hskel
      rw [hprev, hwork, hseq]
      cases e.prev with
      | none => rfl
      | some p =>
        simp only [Option.some_bind]
        rw [find_mapEntry]
        cases hp : st.find p with
        | none => rfl
        | some pe =>
          simp only [Option.map_some']
          by_cases hpid : p = id
          · rw [if_pos hpid]
            have : (f pe).nChainWork = pe.nChainWork := congrArg (fun q => q.2.2.1) (hf pe).1
            rw [this]
          · rw [if_neg hpid]
    · rw [if_neg hj]
      cases e.prev with
      | none => rfl
      | some p =>
        simp only [Option.some_bind]
        rw [find_mapEntry]
        cases hp : st.find p with
        | none => rfl
        | some pe =>
          simp only [Option.map_some']
          by_cases hpid : p = id
          · rw [if_pos hpid]
            have : (f pe).nChainWork = pe.nChainWork := congrArg (fun q => q.2.2.1) (hf pe).1
            rw [this]
          · rw [if_neg hpid]


/-- A successful arena lookup returns a stored pair. -/
theorem lookupArena_mem : ∀ {l : List (Nat × Entry)} {j : Nat} {e : Entry},
    lookupArena l j = some e → (j, e) ∈ l := by
  intro l
  induction l with
  | nil => intro j e h; cases h
  | cons p t ih =>
    intro j e h
    unfold lookupArena at h
    by_cases hp : p.1 = j
    · rw [if_pos hp] at h
      injection h with h2
      subst h2
      subst hp
      exact List.mem_cons_self _ _
    · rw [if_neg hp] at h
      exact List.mem_cons.mpr (Or.inr (ih h))

/-- Eliminate well-formedness into its four components. -/
theorem wf_parts {st : St} (h : WF st) :
    st.chain.isEmpty = false ∧ chainOK st 0 st.chain none = true ∧
      (∀ p ∈ st.arena, entryOK st p.1 p.2 = true) ∧
      (∀ c ∈ st.candidates, (st.find c).isSome = true) := by
  unfold WF wfB at h
  simp only [Bool.and_eq_true, List.all_eq_true, Bool.not_eq_true'] at h
  exact ⟨h.1.1.1, h.1.1.2, h.1.2, h.2⟩

/-- Rebuild well-formedness from its four components. -/
theorem wf_intro {st : St} (h1 : st.chain.isEmpty = false)
    (h2 : chainOK st 0 st.chain none = true)
    (h3 : ∀ p ∈ st.arena, entryOK st p.1 p.2 = true)
    (h4 : ∀ c ∈ st.candidates, (st.find c).isSome = true) : WF st := by
  unfold WF wfB
  simp only [Bool.and_eq_true, List.all_eq_true, Bool.not_eq_true']
  exact ⟨⟨⟨h1, h2⟩, h3⟩, h4⟩

/-- Under well-formedness every resolvable entry is structurally sound. -/
theorem wf_entry {st : St} (h : WF st) {j : Nat} {e : Entry}
    (hf : st.find j = some e) : entryOK st j e = true :=
  (wf_parts h).2.2.1 (j, e) (lookupArena_mem hf)

/-- Views read only the arena. -/
theorem view_congr {st' st : St} (h : st'.arena = st.arena) (j : Nat) :
    view st' j = view st j := by
  unfold view St.find
  rw [h]

/-- The §3 order reads only the arena. -/
theorem cmpIds_congr {st' st : St} (h : st'.arena = st.arena) (a b : Nat) :
    cmpIds st' a b = cmpIds st a b := by
  unfold cmpIds
  rw [view_congr h, view_congr h]

/-- A chain cell reads only the arena. -/
theorem chainCell_congr {st' st : St} (h : st'.arena = st.arena)
    (k : Nat) (p : Option Nat) (x : Nat) : chainCell st' k p x = chainCell st k p x := by
  unfold chainCell St.find
  rw [h]

/-- Chain soundness reads only the arena. -/
theorem chainOK_congr {st' st : St} (h : st'.arena = st.arena) :
    ∀ (l : List Nat) (k : Nat) (p : Option Nat),
      chainOK st' k l p = chainOK st k l p := by
  intro l
  induction l with
  | nil => intro k p; rfl
  | cons x xs ih =>
    intro k p
    unfold chainOK
    rw [chainCell_congr h, ih]

/-- The link condition reads only the arena and the chain root. -/
theorem linkOK_congr {st' st : St} (ha : st'.arena = st.arena)
    (hc : st'.chain.get? 0 = st.chain.get? 0) (j hgt w : Nat) :
    ∀ o : Option Nat, linkOK st' j hgt w o = linkOK st j hgt w o := by
  intro o
  cases o with
  | none =>
    simp only [linkOK]
    rw [hc]
  | some p =>
    simp only [linkOK]
    unfold St.find
    rw [ha]

/-- Entry soundness reads only the arena and the chain root. -/
theorem entryOK_congr {st' st : St} (ha : st'.arena = st.arena)
    (hc : st'.chain.get? 0 = st.chain.get? 0) (j : Nat) (e : Entry) :
    entryOK st' j e = entryOK st j e := by
  unfold entryOK
  rw [linkOK_congr ha hc]

/-- Well-formedness transfers to any state with the same arena, the same
chain and fewer candidates. -/
theorem wf_transfer {st' st : St} (h : WF st) (ha : st'.arena = st.arena)
    (hc : st'.chain = st.chain)
    (hcand : ∀ c ∈ st'.candidates, c ∈ st.candidates) : WF st' := by
  obtain ⟨h1, h2, h3, h4⟩ := wf_parts h
  refine wf_intro ?_ ?_ ?_ ?_
  · rw [hc]; exact h1
  · rw [chainOK_congr ha, hc]; exact h2
  · intro p hp
    rw [entryOK_congr ha (by rw [hc])]
    refine h3 p ?_
    rw [ha] at hp
    exact hp
  · intro c hcm
    have hs := h4 c (hcand c hcm)
    unfold St.find at hs ⊢
    rw [ha]
    exact hs

/-- The running §3 maximum stays in the list. -/
theorem foldMax_mem (st : St) :
    ∀ (cs : List Nat) (c : Nat), foldMax st c cs ∈ c :: cs := by
  intro cs
  induction cs with
  | nil => intro c; exact List.mem_cons_self _ _
  | cons y ys ih =>
    intro c
    unfold foldMax
    by_cases h : cmpIds st c y = true
    · rw [if_pos h]
      rcases List.mem_cons.mp (ih y) with h1 | h1
      · exact List.mem_cons.mpr (Or.inr (List.mem_cons.mpr (Or.inl h1)))
      · exact List.mem_cons.mpr (Or.inr (List.mem_cons.mpr (Or.inr h1)))
    · rw [if_neg h]
      rcases List.mem_cons.mp (ih c) with h1 | h1
      · exact List.mem_cons.mpr (Or.inl h1)
      · exact List.mem_cons.mpr (Or.inr (List.mem_cons.mpr (Or.inr h1)))

/-- No list element outranks the running §3 maximum. -/
theorem foldMax_dom (st : St) :
    ∀ (cs : List Nat) (c : Nat) (z : Nat),
      z ∈ c :: cs → cmpIds st (foldMax st c cs) z = false := by
  intro cs
  induction cs with
  | nil =>
    intro c z hz
    rcases List.mem_cons.mp hz with h1 | h1
    · subst h1
      exact cmpIds_irrefl st z
    · cases h1
  | cons y ys ih =>
    intro c z hz
    unfold foldMax
    by_cases h : cmpIds st c y = true
    · rw [if_pos h]
      rcases List.mem_cons.mp hz with h1 | h1
      · subst h1
        cases hm : cmpIds st (foldMax st y ys) z with
        | false => rfl
        | true =>
          have hy : cmpIds st (foldMax st y ys) y = false :=
            ih y y (List.mem_cons_self _ _)
          have ht : cmpIds st (foldMax st y ys) y = true := cmpIds_trans hm h
          rw [ht] at hy
          cases hy
      · exact ih y z h1
    · rw [if_neg h]
      rcases List.mem_cons.mp hz with h1 | h1
      · rw [h1]
        exact ih c c (List.mem_cons_self _ _)
      · rcases List.mem_cons.mp h1 with h2 | h2
        · subst h2
          cases hm : cmpIds st (foldMax st c ys) z with
          | false => rfl
          | true =>
            have hc : cmpIds st (foldMax st c ys) c = false :=
              ih c c (List.mem_cons_self _ _)
            by_cases hzc : z = c
            · rw [hzc] at hm
              rw [hm] at hc
              cases hc
            · rcases cmpIds_total st hzc with ht | ht
              · have hmc : cmpIds st (foldMax st c ys) c = true := cmpIds_trans hm ht
                rw [hmc] at hc
                cases hc
              · exact absurd ht h
        · exact ih c z (List.mem_cons.mpr (Or.inr h2))

/-- `rbegin()` of the candidate set: a member that no candidate outranks. -/
theorem maxCandidate_spec {st : St} {m : Nat} (h : maxCandidate st = some m) :
    m ∈ st.candidates ∧ ∀ c ∈ st.candidates, cmpIds st m c = false := by
  unfold maxCandidate at h
  cases hc : st.candidates with
  | nil => rw [hc] at h; cases h
  | cons c cs =>
    rw [hc] at h
    injection h with h
    subst h
    exact ⟨foldMax_mem st cs c, fun z hz => foldMax_dom st cs c z hz⟩

/-- The link condition is insensitive to status-only in-place arena
updates. -/
theorem linkOK_mapEntry {f : Entry → Entry} (hf : statusLike f) (st : St)
    (id : Nat) (j hgt w : Nat) :
    ∀ o : Option Nat, linkOK (mapEntry st id f) j hgt w o = linkOK st j hgt w o := by
  intro o
  cases o with
  | none => rfl
  | some p =>
    simp only [linkOK]
    rw [find_mapEntry]
    cases hfp : st.find p with
    | none => rfl
    | some pe =>
      simp only [Option.map_some']
      by_cases hpid : p = id
      · rw [if_pos hpid]
        have h1 : (f pe).nHeight = pe.nHeight := congrArg (fun q => q.2.1) (hf pe).1
        have h2 : (f pe).nChainWork = pe.nChainWork :=
          congrArg (fun q => q.2.2.1) (hf pe).1
        rw [h1, h2]
      · rw [if_neg hpid]

/-- Entry soundness is insensitive to status-only in-place arena updates. -/
theorem entryOK_mapEntry {f : Entry → Entry} (hf : statusLike f) (st : St)
    (id : Nat) (j : Nat) (e : Entry) :
    entryOK (mapEntry st id f) j e = entryOK st j e := by
  unfold entryOK
  rw [linkOK_mapEntry hf]

/-- Status-only updates leave the entry's own soundness unchanged. -/
theorem entryOK_statusArg {f : Entry → Entry} (hf : statusLike f) (st : St)
    (j : Nat) (e : Entry) : entryOK st j (f e) = entryOK st j e := by
  unfold entryOK
  have h0 : (f e).nChainWork = e.nChainWork := congrArg (fun q => q.2.2.1) (hf e).1
  have h1 : (f e).prev = e.prev := congrArg (fun q => q.1) (hf e).1
  have h2 : (f e).nHeight = e.nHeight := congrArg (fun q => q.2.1) (hf e).1
  rw [h0, h1, h2]

/-- A chain cell is insensitive to status-only in-place arena updates. -/
theorem chainCell_mapEntry {f : Entry → Entry} (hf : statusLike f) (st : St)
    (id : Nat) (k : Nat) (p : Option Nat) (x : Nat) :
    chainCell (mapEntry st id f) k p x = chainCell st k p x := by
  unfold chainCell
  rw [find_mapEntry]
  cases hfx : st.find x with
  | none => rfl
  | some e =>
    simp only [Option.map_some']
    by_cases hx : x = id
    · rw [if_pos hx]
      have h1 : (f e).nHeight = e.nHeight := congrArg (fun q => q.2.1) (hf e).1
      have h2 : (f e).prev = e.prev := congrArg (fun q => q.1) (hf e).1
      rw [h1, h2]
    · rw [if_neg hx]

/-- Chain soundness is insensitive to status-only in-place arena updates. -/
theorem chainOK_mapEntry {f : Entry → Entry} (hf : statusLike f) (st : St)
    (id : Nat) :
    ∀ (l : List Nat) (k : Nat) (p : Option Nat),
      chainOK (mapEntry st id f) k l p = chainOK st k l p := by
  intro l
  induction l with
  | nil => intro k p; rfl
  | cons x xs ih =>
    intro k p
    unfold chainOK
    rw [chainCell_mapEntry hf, ih]

/-- A status-only in-place update preserves well-formedness. -/
theorem wf_mapEntry {f : Entry → Entry} (hf : statusLike f) {st : St}
    (h : WF st) (id : Nat) : WF (mapEntry st id f) := by
  obtain ⟨h1, h2, h3, h4⟩ := wf_parts h
  refine wf_intro ?_ ?_ ?_ ?_
  · exact h1
  · rw [chainOK_mapEntry hf]
    exact h2
  · intro p hp
    rcases List.mem_map.mp hp with ⟨q, hq, hgq⟩
    subst hgq
    by_cases hqid : q.1 = id
    · rw [if_pos hqid, entryOK_mapEntry hf, entryOK_statusArg hf]
      exact h3 q hq
    · rw [if_neg hqid, entryOK_mapEntry hf]
      exact h3 q hq
  · intro c hc
    rw [find_mapEntry]
    cases hfc : st.find c with
    | none =>
      have hs := h4 c hc
      rw [hfc] at hs
      simp at hs
    | some e => rfl


/-- Erasing a candidate changes no view. -/
theorem view_eraseCandidate (s : St) (id j : Nat) :
    view (eraseCandidate s id) j = view s j := view_congr rfl j

/-- Recording an unlinked pair changes no view. -/
theorem view_addUnlinked (s : St) (id j : Nat) :
    view (addUnlinked s id) j = view s j := view_congr rfl j

/-- Marking `FAILED_CHILD` changes no view. -/
theorem view_markFailedChild (s : St) (id j : Nat) :
    view (markFailedChild s id) j = view s j :=
  view_mapEntry s id _ statusLike_failedChild j

/-- Marking `FAILED_VALID` changes no view. -/
theorem view_markFailedValid (s : St) (id j : Nat) :
    view (markFailedValid s id) j = view s j :=
  view_mapEntry s id _ statusLike_failedValid j

/-- Erasing a candidate preserves well-formedness. -/
theorem wf_eraseCandidate {s : St} (h : WF s) (id : Nat) :
    WF (eraseCandidate s id) :=
  wf_transfer h rfl rfl (fun c hc => (List.mem_filter.mp hc).1)

/-- Recording an unlinked pair preserves well-formedness. -/
theorem wf_addUnlinked {s : St} (h : WF s) (id : Nat) : WF (addUnlinked s id) :=
  wf_transfer h rfl rfl (fun c hc => hc)

/-- Marking `FAILED_CHILD` preserves well-formedness. -/
theorem wf_markFailedChild {s : St} (h : WF s) (id : Nat) :
    WF (markFailedChild s id) :=
  wf_mapEntry statusLike_failedChild h id

/-- Marking `FAILED_VALID` preserves well-formedness. -/
theorem wf_markFailedValid {s : St} (h : WF s) (id : Nat) :
    WF (markFailedValid s id) :=
  wf_mapEntry statusLike_failedValid h id

/-- The branch-removal fold: views unchanged, candidates shrink,
well-formedness preserved. -/
theorem rbFold_props (b : Bool) :
    ∀ (visited : List Nat) (s : St),
      (∀ j, view (visited.foldl
          (fun s v => eraseCandidate (if b then markFailedChild s v else addUnlinked s v) v) s) j
          = view s j) ∧
        (∀ c ∈ (visited.foldl
            (fun s v => eraseCandidate (if b then markFailedChild s v else addUnlinked s v) v)
              s).candidates,
          c ∈ s.candidates) ∧
        (WF s → WF (visited.foldl
            (fun s v => eraseCandidate (if b then markFailedChild s v else addUnlinked s v) v) s)) := by
  intro visited
  induction visited with
  | nil => intro s; exact ⟨fun j => rfl, fun c hc => hc, fun h => h⟩
  | cons v vs ih =>
    intro s
    simp only [List.foldl_cons]
    have hv1 : ∀ j,
        view (eraseCandidate (if b then markFailedChild s v else addUnlinked s v) v) j
          = view s j := by
      intro j
      rw [view_eraseCandidate]
      by_cases hb : b = true
      · rw [if_pos hb, view_markFailedChild]
      · rw [if_neg hb, view_addUnlinked]
    have hc1 : ∀ c ∈ (eraseCandidate
          (if b then markFailedChild s v else addUnlinked s v) v).candidates,
        c ∈ s.candidates := by
      intro c hc
      have hmem := (List.mem_filter.mp hc).1
      by_cases hb : b = true
      · rw [if_pos hb] at hmem
        exact hmem
      · rw [if_neg hb] at hmem
        exact hmem
    have hw1 : WF s →
        WF (eraseCandidate (if b then markFailedChild s v else addUnlinked s v) v) := by
      intro h
      by_cases hb : b = true
      · rw [if_pos hb]
        exact wf_eraseCandidate (wf_markFailedChild h v) v
      · rw [if_neg hb]
        exact wf_eraseCandidate (wf_addUnlinked h v) v
    obtain ⟨hv2, hc2, hw2⟩ :=
      ih (eraseCandidate (if b then markFailedChild s v else addUnlinked s v) v)
    refine ⟨?_, ?_, ?_⟩
    · intro j
      rw [hv2 j, hv1 j]
    · intro c hc
      exact hc1 c (hc2 c hc)
    · intro h
      exact hw2 (hw1 h)

/-- Branch removal: views unchanged, candidates shrink, well-formedness
preserved. -/
theorem removeBranch_props (s : St) (b : Bool) (visited : List Nat)
    (testId : Nat) :
    (∀ j, view (removeBranch s b visited testId) j = view s j) ∧
      (∀ c ∈ (removeBranch s b visited testId).candidates, c ∈ s.candidates) ∧
      (WF s → WF (removeBranch s b visited testId)) := by
  obtain ⟨hv, hc, hw⟩ := rbFold_props b visited s
  unfold removeBranch
  refine ⟨?_, ?_, ?_⟩
  · intro j
    rw [view_eraseCandidate]
    exact hv j
  · intro c hcm
    exact hc c (List.mem_filter.mp hcm).1
  · intro h
    exact wf_eraseCandidate (hw h) testId

/-- A completed ancestor walk leaves the state untouched. -/
theorem fmwcWalk_ok (pw newId afst : Nat) :
    ∀ (fuel : Nat) (s : St) (cur? : Option Nat) (acc : Nat) (visited : List Nat)
      (s2 : St) (r : Nat × Option Nat),
      fmwcWalk pw newId afst s cur? acc visited fuel = some ⟨s2, some r⟩ →
      s2 = s := by
  intro fuel
  induction fuel with
  | zero =>
    intro s cur? acc visited s2 r h
    simp only [fmwcWalk] at h
    exact Option.noConfusion h
  | succ n ih =>
    intro s cur? acc visited s2 r h
    cases cur? with
    | none =>
      simp only [fmwcWalk] at h
      injection h with h1
      injection h1 with h2 h3
      exact h2.symm
    | some cur =>
      simp only [fmwcWalk] at h
      by_cases hcont : containsId s cur = true
      · rw [if_pos hcont] at h
        injection h with h1
        injection h1 with h2 h3
        exact h2.symm
      · rw [if_neg hcont] at h
        cases hfind : s.find cur with
        | none =>
          simp only [hfind] at h
          exact Option.noConfusion h
        | some e =>
          simp only [hfind] at h
          by_cases hbad : ((e.failedValid || e.failedChild) || !e.haveData) = true
          · rw [if_pos hbad] at h
            injection h with h1
            injection h1 with h2 h3
            cases h3
          · rw [if_neg hbad] at h
            exact ih _ _ _ _ _ _ h

/-- The ancestor walk's failure exit removes a branch: views are unchanged,
candidates shrink, well-formedness is preserved. -/
theorem fmwcWalk_fail (pw newId afst : Nat) :
    ∀ (fuel : Nat) (s : St) (cur? : Option Nat) (acc : Nat) (visited : List Nat)
      (s2 : St),
      fmwcWalk pw newId afst s cur? acc visited fuel = some ⟨s2, none⟩ →
      (∀ j, view s2 j = view s j) ∧ (∀ c ∈ s2.candidates, c ∈ s.candidates) ∧
        (WF s → WF s2) := by
  intro fuel
  induction fuel with
  | zero =>
    intro s cur? acc visited s2 h
    simp only [fmwcWalk] at h
    exact Option.noConfusion h
  | succ n ih =>
    intro s cur? acc visited s2 h
    cases cur? with
    | none =>
      simp only [fmwcWalk] at h
      injection h with h1
      injection h1 with h2 h3
      cases h3
    | some cur =>
      simp only [fmwcWalk] at h
      by_cases hcont : containsId s cur = true
      · rw [if_pos hcont] at h
        injection h with h1
        injection h1 with h2 h3
        cases h3
      · rw [if_neg hcont] at h
        cases hfind : s.find cur with
        | none =>
          simp only [hfind] at h
          exact Option.noConfusion h
        | some e =>
          simp only [hfind] at h
          by_cases hbad : ((e.failedValid || e.failedChild) || !e.haveData) = true
          · rw [if_pos hbad] at h
            injection h with h1
            injection h1 with h2 h3
            subst h2
            exact removeBranch_props s _ visited cur
          · rw [if_neg hbad] at h
            exact ih _ _ _ _ _ h


/-- Chain soundness read at an index: the element resolves at its height,
with the parent link pointing at the previous element. -/
theorem chainOK_get {st : St} :
    ∀ (l : List Nat) (k : Nat) (p : Option Nat), chainOK st k l p = true →
      ∀ (i : Nat) (x : Nat), l.get? i = some x →
        ∃ e, st.find x = some e ∧ e.nHeight = k + i ∧
          ((i = 0 ∧ e.prev = p) ∨
            (0 < i ∧ ∃ y, l.get? (i - 1) = some y ∧ e.prev = some y)) := by
  intro l
  induction l with
  | nil => intro k p h i x hx; cases hx
  | cons z zs ih =>
    intro k p h i x hx
    unfold chainOK at h
    rw [Bool.and_eq_true] at h
    rcases h with ⟨h1, h2⟩
    cases i with
    | zero =>
      injection hx with hx
      subst hx
      unfold chainCell at h1
      cases hf : st.find z with
      | none =>
        simp only [hf] at h1
        exact Bool.noConfusion h1
      | some e =>
        simp only [hf] at h1
        rw [Bool.and_eq_true] at h1
        rcases h1 with ⟨hh, hp⟩
        refine ⟨e, rfl, ?_, Or.inl ⟨rfl, of_decide_eq_true hp⟩⟩
        have hh' := of_decide_eq_true hh
        omega
    | succ i' =>
      obtain ⟨e, hfe, hh, hlink⟩ := ih (k + 1) (some z) h2 i' x hx
      refine ⟨e, hfe, by omega, ?_⟩
      rcases hlink with ⟨hi0, hp⟩ | ⟨hipos, y, hy, hp⟩
      · subst hi0
        exact Or.inr ⟨Nat.succ_pos 0, z, rfl, hp⟩
      · refine Or.inr ⟨Nat.succ_pos i', y, ?_, hp⟩
        have h1' : i' - 1 + 1 = i' := Nat.succ_pred_eq_of_pos hipos
        have h2' : (z :: zs).get? (i' - 1 + 1) = some y := hy
        rw [h1'] at h2'
        exact h2'

/-- `Contains` resolves the block at its height on the chain. -/
theorem containsId_elim {st : St} {f : Nat} (h : containsId st f = true) :
    ∃ e, st.find f = some e ∧ st.chain.get? e.nHeight = some f := by
  unfold containsId at h
  cases hf : st.find f with
  | none =>
    simp only [hf] at h
    exact Bool.noConfusion h
  | some e =>
    simp only [hf] at h
    exact ⟨e, rfl, of_decide_eq_true h⟩

/-- A well-formed state has a tip. -/
theorem wf_tip {st : St} (hwf : WF st) : ∃ t, tipOf st = some t := by
  obtain ⟨h1, _, _, _⟩ := wf_parts hwf
  unfold tipOf
  cases hg : st.chain.getLast? with
  | some t => exact ⟨t, rfl⟩
  | none =>
    rw [List.getLast?_eq_none_iff] at hg
    rw [hg] at h1
    cases h1

/-- The tip sits at index `length − 1` of the chain. -/
theorem tip_get? {st : St} {t : Nat} (h : tipOf st = some t) :
    st.chain.get? (st.chain.length - 1) = some t := by
  unfold tipOf at h
  rw [List.get?_eq_getElem?, ← List.getLast?_eq_getElem?]
  exact h

/-- Under well-formedness a successful fork search lands on the active
chain. -/
theorem findFork_spec {st : St} (hwf : WF st) :
    ∀ (fuel : Nat) (id : Nat) (fork? : Option Nat),
      findFork st (some id) fuel = some fork? →
      ∃ f, fork? = some f ∧ containsId st f = true := by
  intro fuel
  induction fuel with
  | zero =>
    intro id fork? h
    simp only [findFork] at h
    exact Option.noConfusion h
  | succ n ih =>
    intro id fork? h
    simp only [findFork] at h
    by_cases hc : containsId st id = true
    · rw [if_pos hc] at h
      injection h with h
      exact ⟨id, h.symm, hc⟩
    · rw [if_neg hc] at h
      cases hf : st.find id with
      | none =>
        simp only [hf] at h
        exact Option.noConfusion h
      | some e =>
        simp only [hf] at h
        cases hp : e.prev with
        | none =>
          exfalso
          have hok := wf_entry hwf hf
          unfold entryOK at hok
          rw [Bool.and_eq_true] at hok
          rcases hok with ⟨_, hlink⟩
          rw [hp] at hlink
          simp only [linkOK] at hlink
          rw [Bool.and_eq_true] at hlink
          rcases hlink with ⟨hroot, hh0⟩
          apply hc
          unfold containsId
          simp only [hf]
          rw [of_decide_eq_true hh0]
          exact hroot
        | some p =>
          rw [hp] at h
          exact ih p fork? h

/-- Under well-formedness, when the best candidate is parentless and is not
the tip no candidate outranks the tip (no-parent exit of
`FindMostWorkChain`). -/
theorem parentless_cand {st : St} (hwf : WF st) {newId tip : Nat} {e : Entry}
    (hmax : maxCandidate st = some newId) (htip : tipOf st = some tip)
    (hne : newId ≠ tip) (hfe : st.find newId = some e) (hprev : e.prev = none) :
    ∀ c ∈ st.candidates, cmpIds st tip c = false := by
  have hok := wf_entry hwf hfe
  unfold entryOK at hok
  rw [Bool.and_eq_true] at hok
  rcases hok with ⟨hpos, hlink⟩
  rw [hprev] at hlink
  simp only [linkOK] at hlink
  rw [Bool.and_eq_true] at hlink
  rcases hlink with ⟨hroot, hh0⟩
  have hroot' : st.chain.get? 0 = some newId := of_decide_eq_true hroot
  obtain ⟨h1, h2, h3, h4⟩ := wf_parts hwf
  have htipg : st.chain.get? (st.chain.length - 1) = some tip := tip_get? htip
  have hlen0 : st.chain.length ≠ 0 := by
    intro hl
    rw [List.length_eq_zero] at hl
    rw [hl] at hroot'
    cases hroot'
  have hlen1 : st.chain.length ≠ 1 := by
    intro hl
    rw [hl] at htipg
    have hco : some newId = some tip := hroot'.symm.trans htipg
    injection hco with hco
    exact hne hco
  obtain ⟨te, hfte, hhte, htlink⟩ :=
    chainOK_get st.chain 0 none h2 (st.chain.length - 1) tip htipg
  rcases htlink with ⟨hi0, _⟩ | ⟨hip, y, hy, hplink⟩
  · omega
  · obtain ⟨ye, hfye, hhye, _⟩ :=
      chainOK_get st.chain 0 none h2 (st.chain.length - 1 - 1) y hy
    have hyok := wf_entry hwf hfye
    unfold entryOK at hyok
    rw [Bool.and_eq_true] at hyok
    have hypos : 0 < ye.nChainWork := of_decide_eq_true hyok.1
    have hvt : view st tip = ⟨tip, te.nChainWork, some ye.nChainWork, te.nSequenceId⟩ := by
      unfold view
      simp only [hfte]
      rw [hplink]
      simp only [Option.some_bind]
      rw [hfye]
      simp only [Option.map_some']
    have hvn : view st newId = ⟨newId, e.nChainWork, none, e.nSequenceId⟩ := by
      unfold view
      simp only [hfe]
      rw [hprev]
      rfl
    have hcmp : cmpIds st tip newId = false := by
      unfold cmpIds
      rw [hvt, hvn]
      cases hb : Cmp.cBlockIndexWorkComparator
          ⟨tip, te.nChainWork, some ye.nChainWork, te.nSequenceId⟩
          ⟨newId, e.nChainWork, none, e.nSequenceId⟩ with
      | false => rfl
      | true =>
        exfalso
        have hiff := (Cmp.comparator_eq_true_iff _ _).mp hb
        simp only [Cmp.nParentChainWork, Option.getD_some, Option.getD_none] at hiff
        omega
    intro c hc
    have hdom := (maxCandidate_spec hmax).2 c hc
    by_cases hcn : c = newId
    · rw [hcn]
      exact hcmp
    · cases hcmpc : cmpIds st tip c with
      | false => rfl
      | true =>
        exfalso
        rcases cmpIds_total st hcn with ht | ht
        · have htr := cmpIds_trans hcmpc ht
          rw [htr] at hcmp
          cases hcmp
        · rw [ht] at hdom
          cases hdom


/-- `FindMostWorkChain` preserves well-formedness; a returned candidate is
outranked by no remaining candidate; when it reports no viable candidate,
no remaining candidate outranks the tip. -/
theorem findMostWorkChain_spec (pw : Nat) :
    ∀ (fuel : Nat) (st : St) (wfuel : Nat) (st2 : St) (r : Option Nat),
      WF st → findMostWorkChain pw st wfuel fuel = some (st2, r) →
      WF st2 ∧
        (∀ mw, r = some mw → ∀ c ∈ st2.candidates, cmpIds st2 mw c = false) ∧
        (r = none → ∀ t c, tipOf st2 = some t → c ∈ st2.candidates →
          cmpIds st2 t c = false) := by
  intro fuel
  induction fuel with
  | zero =>
    intro st wfuel st2 r hwf h
    simp only [findMostWorkChain] at h
    exact Option.noConfusion h
  | succ n ih =>
    intro st wfuel st2 r hwf h
    simp only [findMostWorkChain] at h
    cases hmax : maxCandidate st with
    | none =>
      simp only [hmax] at h
      injection h with h1
      injection h1 with h2 h3
      subst h2
      subst h3
      refine ⟨hwf, ?_, ?_⟩
      · intro mw hmw
        cases hmw
      · intro _ t c htip hc
        exfalso
        unfold maxCandidate at hmax
        cases hcand : st.candidates with
        | nil =>
          rw [hcand] at hc
          cases hc
        | cons a l =>
          simp only [hcand] at hmax
          exact Option.noConfusion hmax
    | some newId =>
      simp only [hmax] at h
      cases hfork : findFork st (some newId) wfuel with
      | none =>
        simp only [hfork] at h
        exact Option.noConfusion h
      | some fork? =>
        simp only [hfork] at h
        cases hwalk : fmwcWalk pw newId (fmwcAfst st fork? (tipOf st))
            st (some newId) 0 [] wfuel with
        | none =>
          simp only [hwalk] at h
          exact Option.noConfusion h
        | some wr =>
          simp only [hwalk] at h
          obtain ⟨st2w, res⟩ := wr
          cases res with
          | none =>
            exact ih st2w wfuel st2 r
              ((fmwcWalk_fail pw newId _ wfuel st _ 0 [] st2w hwalk).2.2 hwf) h
          | some pr =>
            obtain ⟨acc, tq⟩ := pr
            have hst2w : st2w = st :=
              fmwcWalk_ok pw newId _ wfuel st _ 0 [] st2w (acc, tq) hwalk
            subst hst2w
            cases htip : tipOf st2w with
            | none =>
              obtain ⟨t0, ht0⟩ := wf_tip hwf
              rw [htip] at ht0
              exact Option.noConfusion ht0
            | some tip =>
              simp only [htip] at h
              by_cases hnt : newId = tip
              · rw [if_pos hnt] at h
                injection h with h1
                injection h1 with h2 h3
                subst h2
                subst h3
                refine ⟨hwf, ?_, ?_⟩
                · intro mw hmw c hc
                  injection hmw with hmw
                  subst hmw
                  exact (maxCandidate_spec hmax).2 c hc
                · intro hr
                  cases hr
              · rw [if_neg hnt] at h
                cases hprev : (st2w.find newId).bind (fun e => e.prev) with
                | none =>
                  simp only [hprev] at h
                  injection h with h1
                  injection h1 with h2 h3
                  subst h2
                  subst h3
                  refine ⟨hwf, ?_, ?_⟩
                  · intro mw hmw
                    cases hmw
                  · intro _ t c htip' hc
                    have htt : t = tip := by
                      rw [htip] at htip'
                      injection htip' with htip''
                      exact htip''.symm
                    subst htt
                    obtain ⟨hmem, _⟩ := maxCandidate_spec hmax
                    have hsome := (wf_parts hwf).2.2.2 newId hmem
                    cases hfe : st2w.find newId with
                    | none =>
                      rw [hfe] at hsome
                      cases hsome
                    | some e =>
                      rw [hfe] at hprev
                      rw [Option.some_bind] at hprev
                      exact parentless_cand hwf hmax htip hnt hfe hprev c hc
                | some q =>
                  simp only [hprev] at h
                  by_cases hcmp : Cmp.cBlockIndexWorkComparator (view st2w tip)
                      { view st2w newId with
                        prevChainWork := some (synthPrevWork st2w acc tq) } = true
                  · rw [if_pos hcmp] at h
                    injection h with h1
                    injection h1 with h2 h3
                    subst h2
                    subst h3
                    refine ⟨hwf, ?_, ?_⟩
                    · intro mw hmw c hc
                      injection hmw with hmw
                      subst hmw
                      exact (maxCandidate_spec hmax).2 c hc
                    · intro hr
                      cases hr
                  · rw [if_neg hcmp] at h
                    exact ih _ wfuel st2 r (wf_eraseCandidate hwf newId) h


/-- Chain soundness restricts to prefixes. -/
theorem chainOK_prefix {st : St} :
    ∀ (l1 l2 : List Nat) (k : Nat) (p : Option Nat),
      chainOK st k (l1 ++ l2) p = true → chainOK st k l1 p = true := by
  intro l1
  induction l1 with
  | nil => intro l2 k p h; rfl
  | cons z zs ih =>
    intro l2 k p h
    rw [List.cons_append] at h
    unfold chainOK at h ⊢
    rw [Bool.and_eq_true] at h ⊢
    exact ⟨h.1, ih l2 (k + 1) (some z) h.2⟩

/-- Extending a sound chain by one block linked to its last element. -/
theorem chainOK_snoc {st : St} {id : Nat} {e : Entry}
    (hfe : st.find id = some e) :
    ∀ (l : List Nat) (k : Nat) (p : Option Nat),
      chainOK st k l p = true →
      e.nHeight = k + l.length →
      ((l = [] ∧ e.prev = p) ∨ (∃ t, l.getLast? = some t ∧ e.prev = some t)) →
      chainOK st k (l ++ [id]) p = true := by
  intro l
  induction l with
  | nil =>
    intro k p _ hh hl
    rw [List.nil_append]
    rw [List.length_nil] at hh
    rcases hl with ⟨_, hp⟩ | ⟨t, hg, _⟩
    · unfold chainOK
      rw [Bool.and_eq_true]
      constructor
      · unfold chainCell
        simp only [hfe]
        rw [Bool.and_eq_true]
        exact ⟨decide_eq_true (by omega), decide_eq_true hp⟩
      · rfl
    · cases hg
  | cons z zs ih =>
    intro k p h hh hl
    rw [List.cons_append]
    unfold chainOK
    unfold chainOK at h
    rw [Bool.and_eq_true] at h ⊢
    refine ⟨h.1, ?_⟩
    rw [List.length_cons] at hh
    refine ih (k + 1) (some z) h.2 (by omega) ?_
    rcases hl with ⟨hz, _⟩ | ⟨t, hg, hp⟩
    · cases hz
    · cases zs with
      | nil =>
        rw [List.getLast?_singleton] at hg
        injection hg with hg
        subst hg
        exact Or.inl ⟨rfl, hp⟩
      | cons w ws =>
        rw [List.getLast?_cons_cons] at hg
        exact Or.inr ⟨t, hg, hp⟩

/-- An index other than the last survives `dropLast`. -/
theorem get?_dropLast {l : List Nat} {i : Nat} {x t : Nat}
    (hx : l.get? i = some x) (ht : l.getLast? = some t) (hne : x ≠ t) :
    l.dropLast.get? i = some x := by
  rw [List.get?_eq_getElem?] at hx ⊢
  rw [List.getElem?_dropLast]
  have hlen : i < l.length := by
    cases hlt : l[i]? with
    | none => rw [hlt] at hx; cases hx
    | some y =>
      cases Nat.lt_or_ge i l.length with
      | inl h => exact h
      | inr h =>
        rw [List.getElem?_eq_none h] at hlt
        cases hlt
  by_cases hi : i < l.length - 1
  · rw [if_pos hi]
    exact hx
  · exfalso
    have hieq : i = l.length - 1 := by omega
    rw [List.getLast?_eq_getElem?] at ht
    rw [hieq] at hx
    rw [hx] at ht
    injection ht with ht
    exact hne ht

/-- Pruning changes no view. -/
theorem view_prune (s : St) (j : Nat) :
    view (pruneBlockIndexCandidates s) j = view s j := by
  unfold pruneBlockIndexCandidates
  cases ht : tipOf s with
  | none => rfl
  | some tip => exact view_congr rfl j

/-- Pruning only shrinks the candidate set. -/
theorem prune_candidates_sub (s : St) :
    ∀ c ∈ (pruneBlockIndexCandidates s).candidates, c ∈ s.candidates := by
  intro c hc
  unfold pruneBlockIndexCandidates at hc
  cases ht : tipOf s with
  | none =>
    rw [ht] at hc
    exact hc
  | some tip =>
    rw [ht] at hc
    exact (List.mem_filter.mp hc).1

/-- Pruning preserves well-formedness. -/
theorem wf_prune {s : St} (h : WF s) : WF (pruneBlockIndexCandidates s) := by
  unfold pruneBlockIndexCandidates
  cases ht : tipOf s with
  | none => exact h
  | some tip => exact wf_transfer h rfl rfl (fun c hc => (List.mem_filter.mp hc).1)

/-- `ConnectTip` cases: it runs only when the block's parent is the tip
(the source asserts this); success appends the block, an invalid block
marks `FAILED_VALID` and erases the candidate unless corruption is
possible, and a system error is the failure exit. -/
theorem connectTip_cases {io : ChainIO} {s : St} {id : Nat} {lr : LoopRes}
    (h : connectTip io s id = some lr) :
    ∃ e, s.find id = some e ∧ e.prev = tipOf s ∧
      ((io.connectOutcome id = 0 ∧
          lr = .ok { s with chain := s.chain ++ [id] } false) ∨
        (io.connectOutcome id = 1 ∧
          lr = .ok (if io.connectCorruption id = true then s
                    else eraseCandidate (markFailedValid s id) id) true) ∨
        lr = .fail s) := by
  unfold connectTip at h
  cases hfe : s.find id with
  | none =>
    simp only [hfe] at h
    exact Option.noConfusion h
  | some e =>
    simp only [hfe] at h
    by_cases hp : e.prev ≠ tipOf s
    · rw [if_pos hp] at h
      exact Option.noConfusion h
    · rw [if_neg hp] at h
      refine ⟨e, rfl, not_not.mp hp, ?_⟩
      by_cases h0 : io.connectOutcome id = 0
      · rw [if_pos h0] at h
        injection h with h1
        exact Or.inl ⟨h0, h1.symm⟩
      · rw [if_neg h0] at h
        by_cases h1c : io.connectOutcome id = 1
        · rw [if_pos h1c] at h
          injection h with h1
          exact Or.inr (Or.inl ⟨h1c, h1.symm⟩)
        · rw [if_neg h1c] at h
          injection h with h1
          exact Or.inr (Or.inr h1.symm)

/-- A successful connect (block whose parent is the tip) preserves
well-formedness. -/
theorem wf_connect_append {s : St} (hwf : WF s) {id : Nat} {e : Entry}
    (hfe : s.find id = some e) (hp : e.prev = tipOf s) :
    WF { s with chain := s.chain ++ [id] } := by
  obtain ⟨h1, h2, h3, h4⟩ := wf_parts hwf
  obtain ⟨t, ht⟩ := wf_tip hwf
  rw [ht] at hp
  have htg := tip_get? ht
  obtain ⟨te, hfte, hhte, _⟩ :=
    chainOK_get s.chain 0 none h2 (s.chain.length - 1) t htg
  have hok := wf_entry hwf hfe
  unfold entryOK at hok
  rw [Bool.and_eq_true] at hok
  have hlink := hok.2
  rw [hp] at hlink
  simp only [linkOK] at hlink
  simp only [hfte] at hlink
  rw [Bool.and_eq_true] at hlink
  have hhe : te.nHeight + 1 = e.nHeight := of_decide_eq_true hlink.1
  have hlen : s.chain.length ≠ 0 := by
    intro hl
    rw [List.length_eq_zero] at hl
    have ht' : s.chain.getLast? = some t := ht
    rw [hl] at ht'
    cases ht'
  refine wf_intro ?_ ?_ ?_ ?_
  · rw [List.isEmpty_eq_false]
    intro hcne
    have hlc := congrArg List.length hcne
    rw [List.length_append] at hlc
    simp at hlc
  · have hck : ∀ (l : List Nat) (k : Nat) (p : Option Nat),
        chainOK { s with chain := s.chain ++ [id] } k l p = chainOK s k l p :=
      @chainOK_congr { s with chain := s.chain ++ [id] } s rfl
    rw [hck]
    show chainOK s 0 (s.chain ++ [id]) none = true
    refine chainOK_snoc hfe s.chain 0 none h2 (by omega) ?_
    exact Or.inr ⟨t, ht, hp⟩
  · intro p hp2
    have hc0 : ({ s with chain := s.chain ++ [id] } : St).chain.get? 0
        = s.chain.get? 0 := by
      show (s.chain ++ [id]).get? 0 = s.chain.get? 0
      rw [List.get?_eq_getElem?, List.get?_eq_getElem?, List.getElem?_append]
      rw [if_pos (by omega)]
    have hek : ∀ (j : Nat) (e' : Entry),
        entryOK { s with chain := s.chain ++ [id] } j e' = entryOK s j e' :=
      fun j e' => @entryOK_congr { s with chain := s.chain ++ [id] } s rfl hc0 j e'
    rw [hek]
    exact h3 p hp2
  · intro c hc
    exact h4 c hc


/-- The disconnect loop, stopped at a fork present on the chain: only the
chain changes, to a prefix whose tip is the fork. -/
theorem disconnectLoop_ok (io : ChainIO) (f hf : Nat) :
    ∀ (fuel : Nat) (s : St) (fDisc : Bool) (st1 : St) (flag : Bool),
      s.chain.get? hf = some f →
      disconnectLoop io (some f) s fDisc fuel = some (.ok st1 flag) →
      st1.arena = s.arena ∧ st1.candidates = s.candidates ∧
        st1.unlinked = s.unlinked ∧ st1.chain <+: s.chain ∧
        st1.chain.get? hf = some f ∧ tipOf st1 = some f := by
  intro fuel
  induction fuel with
  | zero =>
    intro s fDisc st1 flag hfg h
    simp only [disconnectLoop] at h
    exact Option.noConfusion h
  | succ n ih =>
    intro s fDisc st1 flag hfg h
    simp only [disconnectLoop] at h
    cases htip : tipOf s with
    | none =>
      exfalso
      have htipl : s.chain.getLast? = none := htip
      rw [List.getLast?_eq_none_iff] at htipl
      rw [htipl] at hfg
      cases hfg
    | some t =>
      simp only [htip] at h
      by_cases hts : some t = some f
      · rw [if_pos hts] at h
        injection h with h1
        injection h1 with h2 h3
        subst h2
        injection hts with hts2
        refine ⟨rfl, rfl, rfl, List.prefix_refl _, hfg, ?_⟩
        rw [htip, hts2]
      · rw [if_neg hts] at h
        cases hdt : disconnectTip io s with
        | none =>
          simp only [hdt] at h
          injection h with h1
          cases h1
        | some s2 =>
          simp only [hdt] at h
          have hs2 : s2 = { s with chain := s.chain.dropLast } := by
            unfold disconnectTip at hdt
            simp only [htip] at hdt
            by_cases hd : io.disconnectOK t = true
            · rw [if_pos hd] at hdt
              injection hdt with hdt
              exact hdt.symm
            · rw [if_neg hd] at hdt
              exact Option.noConfusion hdt
          subst hs2
          have hne : f ≠ t := fun heq => hts (by rw [heq])
          have htipl : s.chain.getLast? = some t := htip
          have hfg2 : ({ s with chain := s.chain.dropLast } : St).chain.get? hf
              = some f := by
            show s.chain.dropLast.get? hf = some f
            exact get?_dropLast hfg htipl hne
          obtain ⟨ha, hc, hu, hpre, hg, htp⟩ := ih _ true st1 flag hfg2 h
          refine ⟨ha, hc, hu, ?_, hg, htp⟩
          refine hpre.trans ?_
          show s.chain.dropLast <+: s.chain
          rw [List.dropLast_eq_take]
          exact List.take_prefix _ _

/-- The connect loop on normal completion: well-formedness is preserved,
views are unchanged and candidates only shrink. -/
theorem connectLoop_ok (io : ChainIO) (oldTip? : Option Nat) :
    ∀ (path : List Nat) (s : St) (st3 : St) (flag : Bool),
      WF s → connectLoop io oldTip? s path = some (.ok st3 flag) →
      WF st3 ∧ (∀ j, view st3 j = view s j) ∧
        (∀ c ∈ st3.candidates, c ∈ s.candidates) := by
  intro path
  induction path with
  | nil =>
    intro s st3 flag hwf h
    simp only [connectLoop] at h
    injection h with h1
    injection h1 with h2 h3
    subst h2
    exact ⟨hwf, fun j => rfl, fun c hc => hc⟩
  | cons id rest ih =>
    intro s st3 flag hwf h
    cases hct : connectTip io s id with
    | none =>
      simp only [connectLoop, hct] at h
      exact Option.noConfusion h
    | some lr =>
      obtain ⟨e, hfe, hp, hcase⟩ := connectTip_cases hct
      rcases hcase with ⟨h0, hlr⟩ | ⟨h1c, hlr⟩ | hlr
      · subst hlr
        simp only [connectLoop, hct] at h
        have hwf2 : WF (pruneBlockIndexCandidates { s with chain := s.chain ++ [id] }) :=
          wf_prune (wf_connect_append hwf hfe hp)
        have hview2 : ∀ j,
            view (pruneBlockIndexCandidates { s with chain := s.chain ++ [id] }) j
              = view s j := by
          intro j
          rw [view_prune]
          exact view_congr rfl j
        have hcand2 : ∀ c ∈ (pruneBlockIndexCandidates
              { s with chain := s.chain ++ [id] }).candidates,
            c ∈ s.candidates := by
          intro c hc
          have hm := prune_candidates_sub { s with chain := s.chain ++ [id] } c hc
          exact hm
        by_cases hbet : betterThanOld (pruneBlockIndexCandidates
            { s with chain := s.chain ++ [id] }) oldTip? = true
        · rw [if_pos hbet] at h
          injection h with h1
          injection h1 with h2 h3
          subst h2
          exact ⟨hwf2, hview2, hcand2⟩
        · rw [if_neg hbet] at h
          obtain ⟨hw3, hv3, hc3⟩ := ih _ st3 flag hwf2 h
          refine ⟨hw3, ?_, ?_⟩
          · intro j
            rw [hv3 j, hview2 j]
          · intro c hc
            exact hcand2 c (hc3 c hc)
      · subst hlr
        simp only [connectLoop, hct] at h
        injection h with h1
        injection h1 with h2 h3
        subst h2
        by_cases hcor : io.connectCorruption id = true
        · rw [if_pos hcor]
          exact ⟨hwf, fun j => rfl, fun c hc => hc⟩
        · rw [if_neg hcor]
          refine ⟨wf_eraseCandidate (wf_markFailedValid hwf id) id, ?_, ?_⟩
          · intro j
            rw [view_eraseCandidate, view_markFailedValid]
          · intro c hc
            have hm := (List.mem_filter.mp hc).1
            exact hm
      · subst hlr
        simp only [connectLoop, hct] at h
        injection h with h1
        cases h1

/-- `ActivateBestChainStep` on normal completion: well-formedness is
preserved, views are unchanged and candidates only shrink. -/
theorem activateBestChainStep_ok {io : ChainIO} {wfuel : Nat} {st : St}
    {mw : Nat} {st3 : St} {flag : Bool} (hwf : WF st)
    (h : activateBestChainStep io wfuel st mw = some (.ok st3 flag)) :
    WF st3 ∧ (∀ j, view st3 j = view st j) ∧
      (∀ c ∈ st3.candidates, c ∈ st.candidates) := by
  unfold activateBestChainStep at h
  cases hfork : findFork st (some mw) wfuel with
  | none =>
    simp only [hfork] at h
    exact Option.noConfusion h
  | some fork? =>
    obtain ⟨f, hfeq, hcont⟩ := findFork_spec hwf wfuel mw fork? hfork
    subst hfeq
    simp only [hfork] at h
    obtain ⟨ef, hfef, hgf⟩ := containsId_elim hcont
    cases hdl : disconnectLoop io (some f) st false (st.chain.length + 1) with
    | none =>
      simp only [hdl] at h
      exact Option.noConfusion h
    | some dres =>
      cases dres with
      | fail st1 =>
        simp only [hdl] at h
        injection h with h1
        cases h1
      | ok st1 fl =>
        simp only [hdl] at h
        obtain ⟨ha, hc, hu, hpre, hg, htp⟩ :=
          disconnectLoop_ok io f ef.nHeight (st.chain.length + 1) st false st1 fl hgf hdl
        have hwf1 : WF st1 := by
          obtain ⟨h1, h2, h3, h4⟩ := wf_parts hwf
          have hlen1 : 0 < st1.chain.length := by
            cases hlt : st1.chain.get? ef.nHeight with
            | none =>
              rw [hlt] at hg
              cases hg
            | some y =>
              rw [List.get?_eq_getElem?] at hlt
              cases Nat.lt_or_ge ef.nHeight st1.chain.length with
              | inl hlt2 => omega
              | inr hge =>
                rw [List.getElem?_eq_none hge] at hlt
                cases hlt
          obtain ⟨l2, happ⟩ := hpre
          refine wf_intro ?_ ?_ ?_ ?_
          · rw [List.isEmpty_eq_false]
            intro hcne
            rw [hcne] at hlen1
            cases hlen1
          · rw [chainOK_congr ha]
            have h2' := h2
            rw [← happ] at h2'
            exact chainOK_prefix st1.chain l2 0 none h2'
          · intro p hp2
            have hc0 : st1.chain.get? 0 = st.chain.get? 0 := by
              rw [← happ]
              rw [List.get?_eq_getElem?, List.get?_eq_getElem?, List.getElem?_append]
              rw [if_pos hlen1]
            rw [entryOK_congr ha hc0]
            refine h3 p ?_
            rw [ha] at hp2
            exact hp2
          · intro c hcc
            rw [hc] at hcc
            have hs := h4 c hcc
            unfold St.find at hs ⊢
            rw [ha]
            exact hs
        rw [Option.some_bind] at h
        cases hse : st1.find f with
        | none =>
          simp only [hse] at h
          cases hpath : pathAbove st1 (-1) (some mw) wfuel with
          | none =>
            simp only [hpath] at h
            exact Option.noConfusion h
          | some path =>
            simp only [hpath] at h
            obtain ⟨hw3, hv3, hc3⟩ := connectLoop_ok io (tipOf st) path st1 st3 flag hwf1 h
            refine ⟨hw3, ?_, ?_⟩
            · intro j
              rw [hv3 j]
              exact view_congr ha j
            · intro c hcc
              have hm := hc3 c hcc
              rw [hc] at hm
              exact hm
        | some ef1 =>
          simp only [hse] at h
          cases hpath : pathAbove st1 ((ef1.nHeight : Int)) (some mw) wfuel with
          | none =>
            simp only [hpath] at h
            exact Option.noConfusion h
          | some path =>
            simp only [hpath] at h
            obtain ⟨hw3, hv3, hc3⟩ := connectLoop_ok io (tipOf st) path st1 st3 flag hwf1 h
            refine ⟨hw3, ?_, ?_⟩
            · intro j
              rw [hv3 j]
              exact view_congr ha j
            · intro c hcc
              have hm := hc3 c hcc
              rw [hc] at hm
              exact hm


/-- The `ActivateBestChain` loop invariant: from a well-formed state with a
dominating cache, a successful run leaves no candidate outranking the
tip. -/
theorem abcLoop_inv (io : ChainIO) (pw wfuel : Nat) :
    ∀ (fuel : Nat) (st : St) (cached : Option Nat) (st' : St),
      WF st →
      (∀ m, cached = some m → ∀ c ∈ st.candidates, cmpIds st m c = false) →
      abcLoop io pw wfuel st cached fuel = some (st', true) →
      ∀ t c, tipOf st' = some t → c ∈ st'.candidates → cmpIds st' t c = false := by
  intro fuel
  induction fuel with
  | zero =>
    intro st cached st' hwf hdom h
    simp only [abcLoop] at h
    exact Option.noConfusion h
  | succ n ih =>
    intro st cached st' hwf hdom h
    simp only [abcLoop] at h
    cases cached with
    | some m =>
      simp only [abcCompute] at h
      by_cases htm : tipOf st = some m
      · rw [if_pos htm] at h
        injection h with h1
        injection h1 with h2 _
        subst h2
        intro t c htip hc
        rw [htip] at htm
        injection htm with htm2
        rw [htm2]
        exact hdom m rfl c hc
      · rw [if_neg htm] at h
        cases hstep : activateBestChainStep io wfuel st m with
        | none =>
          simp only [hstep] at h
          exact Option.noConfusion h
        | some sres =>
          cases sres with
          | fail st3 =>
            simp only [hstep] at h
            injection h with h1
            injection h1 with _ h3
            cases h3
          | ok st3 fInv =>
            simp only [hstep] at h
            obtain ⟨hwf3, hview3, hcand3⟩ := activateBestChainStep_ok hwf hstep
            have hdom3 : ∀ c ∈ st3.candidates, cmpIds st3 m c = false := by
              intro c hc
              have hd := hdom m rfl c (hcand3 c hc)
              unfold cmpIds at hd ⊢
              rw [hview3, hview3]
              exact hd
            by_cases hInv : fInv = true
            · rw [if_pos hInv] at h
              exact ih st3 none st' hwf3 (fun m2 hm2 => Option.noConfusion hm2) h
            · rw [if_neg hInv] at h
              by_cases htm3 : tipOf st3 = some m
              · rw [if_pos htm3] at h
                by_cases hfl : io.flushOK = true
                · rw [if_pos hfl] at h
                  injection h with h1
                  injection h1 with h2 _
                  subst h2
                  intro t c htip hc
                  rw [htip] at htm3
                  injection htm3 with htm4
                  rw [htm4]
                  exact hdom3 c hc
                · rw [if_neg hfl] at h
                  injection h with h1
                  injection h1 with _ h3
                  cases h3
              · rw [if_neg htm3] at h
                refine ih st3 (some m) st' hwf3 ?_ h
                intro m2 hm2
                injection hm2 with hm2
                subst hm2
                exact hdom3
    | none =>
      simp only [abcCompute] at h
      cases hfmwc : findMostWorkChain pw st wfuel wfuel with
      | none =>
        simp only [hfmwc] at h
        exact Option.noConfusion h
      | some pr =>
        obtain ⟨st2, r⟩ := pr
        obtain ⟨hwf2, hdomsome, hdomnone⟩ :=
          findMostWorkChain_spec pw wfuel st wfuel st2 r hwf hfmwc
        cases r with
        | none =>
          simp only [hfmwc] at h
          injection h with h1
          injection h1 with h2 _
          subst h2
          intro t c htip hc
          exact hdomnone rfl t c htip hc
        | some mw =>
          simp only [hfmwc] at h
          have hdom2 : ∀ c ∈ st2.candidates, cmpIds st2 mw c = false := hdomsome mw rfl
          by_cases htm : tipOf st2 = some mw
          · rw [if_pos htm] at h
            injection h with h1
            injection h1 with h2 _
            subst h2
            intro t c htip hc
            rw [htip] at htm
            injection htm with htm2
            rw [htm2]
            exact hdom2 c hc
          · rw [if_neg htm] at h
            cases hstep : activateBestChainStep io wfuel st2 mw with
            | none =>
              simp only [hstep] at h
              exact Option.noConfusion h
            | some sres =>
              cases sres with
              | fail st3 =>
                simp only [hstep] at h
                injection h with h1
                injection h1 with _ h3
                cases h3
              | ok st3 fInv =>
                simp only [hstep] at h
                obtain ⟨hwf3, hview3, hcand3⟩ := activateBestChainStep_ok hwf2 hstep
                have hdom3 : ∀ c ∈ st3.candidates, cmpIds st3 mw c = false := by
                  intro c hc
                  have hd := hdom2 c (hcand3 c hc)
                  unfold cmpIds at hd ⊢
                  rw [hview3, hview3]
                  exact hd
                by_cases hInv : fInv = true
                · rw [if_pos hInv] at h
                  exact ih st3 none st' hwf3 (fun m2 hm2 => Option.noConfusion hm2) h
                · rw [if_neg hInv] at h
                  by_cases htm3 : tipOf st3 = some mw
                  · rw [if_pos htm3] at h
                    by_cases hfl : io.flushOK = true
                    · rw [if_pos hfl] at h
                      injection h with h1
                      injection h1 with h2 _
                      subst h2
                      intro t c htip hc
                      rw [htip] at htm3
                      injection htm3 with htm4
                      rw [htm4]
                      exact hdom3 c hc
                    · rw [if_neg hfl] at h
                      injection h with h1
                      injection h1 with _ h3
                      cases h3
                  · rw [if_neg htm3] at h
                    refine ih st3 (some mw) st' hwf3 ?_ h
                    intro m2 hm2
                    injection hm2 with hm2
                    subst hm2
                    exact hdom3


/-- A one-block witness state: genesis alone on the chain, itself the only
candidate. -/
def entryC3 : Entry :=
  ⟨none, 0, 50, 1, 1, 1, true, false, false, 1⟩

/-- The witness engine state for the tip-selection invariant. -/
def stC3 : St := ⟨[(0, entryC3)], [0], [0], []⟩

/-- A witness oracle whose connects succeed and whose flush succeeds. -/
def ioC3 : ChainIO := ⟨fun _ => 0, fun _ => false, fun _ => true, true⟩

/-- C3: after `activate_best_chain` (`ActivateBestChain`) completes
successfully from a well-formed state, no entry remaining in the candidate
set `setBlockIndexCandidates` ranks strictly higher than the current
active-chain tip under the `CBlockIndexWorkComparator` ordering (spec
invariant I7). -/
theorem activateBestChain_no_candidate_outranks_tip
    (io : ChainIO) (pw wfuel fuel : Nat) (st st' : St) (hwf : WF st)
    (hrun : activateBestChain io pw wfuel fuel st = some (st', true)) :
    ∀ t c, tipOf st' = some t → c ∈ st'.candidates → cmpIds st' t c = false := by
  unfold activateBestChain at hrun
  exact abcLoop_inv io pw wfuel fuel st none st' hwf
    (fun m hm => Option.noConfusion hm) hrun

/-- C3 witness: a concrete well-formed state on which the run succeeds and
the conclusion holds for the resulting tip and candidates. -/
theorem activateBestChain_no_candidate_outranks_tip_witness :
    WF stC3 ∧
      activateBestChain ioC3 7 1 1 stC3 = some (stC3, true) ∧
      (∀ t c, tipOf stC3 = some t → c ∈ stC3.candidates →
        cmpIds stC3 t c = false) :=
  ⟨(by decide : wfB stC3 = true), by decide,
    activateBestChain_no_candidate_outranks_tip ioC3 7 1 1 stC3 stC3
      (by decide : wfB stC3 = true) (by decide)⟩


/-- A clean candidate branch: each listed block resolves to its entry, is
off the active chain, has its data and no failure bits, and links to the
next listed block, the last linking to the fork block `f`; blocks after the
head are distinct from the head. -/
def branchWalkOK (st : St) (newId f : Nat) : List (Nat × Entry) → Bool
  | [] => false
  | [(i, e)] =>
    decide (st.find i = some e) && !containsId st i &&
      !((e.failedValid || e.failedChild) || !e.haveData) &&
      decide (e.prev = some f)
  | (i, e) :: (j, e2) :: rest =>
    decide (st.find i = some e) && !containsId st i &&
      !((e.failedValid || e.failedChild) || !e.haveData) &&
      decide (e.prev = some j) && decide (j ≠ newId) &&
      branchWalkOK st newId f ((j, e2) :: rest)

/-- The total penalized work of a branch segment. -/
def penSum (pw afst : Nat) : List (Nat × Entry) → Nat
  | [] => 0
  | p :: rest => getPenalizedWork pw p.2 afst + penSum pw afst rest

/-- With a nonzero fork start time the penalized-work sum is the spec's
formula: each block contributes its work divided by
`2 ^ log2((time − activeForkStartTime) / penaltyWindow)`. -/
theorem penSum_formula (pw afst : Nat) (h0 : afst ≠ 0) :
    ∀ l : List (Nat × Entry),
      penSum pw afst l =
        (l.map (fun p => p.2.work / 2 ^ Nat.log2 ((p.2.nTime - afst) / pw))).sum := by
  intro l
  induction l with
  | nil => rfl
  | cons p rest ih =>
    simp only [penSum, List.map_cons, List.sum_cons, ih]
    unfold getPenalizedWork
    rw [if_neg h0]

/-- The fork search along a clean branch stops at the fork block. -/
theorem findFork_branch {st : St} {newId f : Nat}
    (hcf : containsId st f = true) :
    ∀ (l : List (Nat × Entry)) (i : Nat) (e : Entry) (fuel : Nat),
      branchWalkOK st newId f ((i, e) :: l) = true →
      l.length + 1 < fuel →
      findFork st (some i) fuel = some (some f) := by
  intro l
  induction l with
  | nil =>
    intro i e fuel hb hfu
    cases fuel with
    | zero => omega
    | succ n =>
      simp only [branchWalkOK, Bool.and_eq_true] at hb
      obtain ⟨⟨⟨hfind, hnc⟩, hclean⟩, hprev⟩ := hb
      rw [Bool.not_eq_true'] at hnc
      simp only [findFork]
      rw [if_neg (by rw [hnc]; exact Bool.false_ne_true)]
      simp only [of_decide_eq_true hfind]
      rw [of_decide_eq_true hprev]
      cases n with
      | zero => omega
      | succ m =>
        simp only [findFork]
        rw [if_pos hcf]
  | cons p2 rest ih =>
    intro i e fuel hb hfu
    obtain ⟨j, e2⟩ := p2
    cases fuel with
    | zero => omega
    | succ n =>
      simp only [branchWalkOK, Bool.and_eq_true] at hb
      obtain ⟨⟨⟨⟨⟨hfind, hnc⟩, hclean⟩, hprev⟩, hne⟩, htl⟩ := hb
      rw [Bool.not_eq_true'] at hnc
      simp only [findFork]
      rw [if_neg (by rw [hnc]; exact Bool.false_ne_true)]
      simp only [of_decide_eq_true hfind]
      rw [of_decide_eq_true hprev]
      refine ih j e2 n htl ?_
      rw [List.length_cons] at hfu
      omega

/-- The ancestor walk along a clean branch segment (whose blocks are not
the candidate): it reaches the fork accumulating each block's penalized
work. -/
theorem fmwcWalk_branch (pw afst : Nat) {st : St} {newId f : Nat}
    (hcf : containsId st f = true) :
    ∀ (l : List (Nat × Entry)) (i : Nat) (e : Entry) (acc : Nat)
      (visited : List Nat) (fuel : Nat),
      branchWalkOK st newId f ((i, e) :: l) = true →
      i ≠ newId →
      l.length + 1 < fuel →
      fmwcWalk pw newId afst st (some i) acc visited fuel =
        some ⟨st, some (acc + penSum pw afst ((i, e) :: l), some f)⟩ := by
  intro l
  induction l with
  | nil =>
    intro i e acc visited fuel hb hine hfu
    cases fuel with
    | zero => omega
    | succ n =>
      simp only [branchWalkOK, Bool.and_eq_true] at hb
      obtain ⟨⟨⟨hfind, hnc⟩, hclean⟩, hprev⟩ := hb
      rw [Bool.not_eq_true'] at hnc
      rw [Bool.not_eq_true'] at hclean
      simp only [fmwcWalk]
      rw [if_neg (by rw [hnc]; exact Bool.false_ne_true)]
      simp only [of_decide_eq_true hfind]
      rw [if_neg (by rw [hclean]; exact Bool.false_ne_true)]
      rw [if_pos hine, of_decide_eq_true hprev]
      cases n with
      | zero => omega
      | succ m =>
        simp only [fmwcWalk]
        rw [if_pos hcf]
        simp only [penSum]
        rw [Nat.add_zero]
  | cons p2 rest ih =>
    intro i e acc visited fuel hb hine hfu
    obtain ⟨j, e2⟩ := p2
    cases fuel with
    | zero => omega
    | succ n =>
      simp only [branchWalkOK, Bool.and_eq_true] at hb
      obtain ⟨⟨⟨⟨⟨hfind, hnc⟩, hclean⟩, hprev⟩, hne⟩, htl⟩ := hb
      rw [Bool.not_eq_true'] at hnc
      rw [Bool.not_eq_true'] at hclean
      simp only [fmwcWalk]
      rw [if_neg (by rw [hnc]; exact Bool.false_ne_true)]
      simp only [of_decide_eq_true hfind]
      rw [if_neg (by rw [hclean]; exact Bool.false_ne_true)]
      rw [if_pos hine, of_decide_eq_true hprev]
      rw [ih j e2 (acc + getPenalizedWork pw e afst) (visited ++ [i]) n
        htl (of_decide_eq_true hne)
        (by rw [List.length_cons] at hfu; omega)]
      simp only [penSum]
      rw [Nat.add_assoc]

/-- The full ancestor walk from the candidate: the candidate itself
contributes nothing, its strict ancestors up to the fork contribute their
penalized work. -/
theorem fmwcWalk_full (pw afst : Nat) {st : St} {newId f : Nat}
    (hcf : containsId st f = true) (e0 : Entry) (tail : List (Nat × Entry))
    (fuel : Nat)
    (hb : branchWalkOK st newId f ((newId, e0) :: tail) = true)
    (hfu : tail.length + 2 < fuel) :
    fmwcWalk pw newId afst st (some newId) 0 [] fuel =
      some ⟨st, some (penSum pw afst tail, some f)⟩ := by
  cases fuel with
  | zero => omega
  | succ n =>
    cases tail with
    | nil =>
      simp only [branchWalkOK, Bool.and_eq_true] at hb
      obtain ⟨⟨⟨hfind, hnc⟩, hclean⟩, hprev⟩ := hb
      rw [Bool.not_eq_true'] at hnc
      rw [Bool.not_eq_true'] at hclean
      simp only [fmwcWalk]
      rw [if_neg (by rw [hnc]; exact Bool.false_ne_true)]
      simp only [of_decide_eq_true hfind]
      rw [if_neg (by rw [hclean]; exact Bool.false_ne_true)]
      rw [if_neg (fun hx => hx rfl), of_decide_eq_true hprev]
      cases n with
      | zero => omega
      | succ m =>
        simp only [fmwcWalk]
        rw [if_pos hcf]
        simp only [penSum]
    | cons p2 rest =>
      obtain ⟨j, e2⟩ := p2
      simp only [branchWalkOK, Bool.and_eq_true] at hb
      obtain ⟨⟨⟨⟨⟨hfind, hnc⟩, hclean⟩, hprev⟩, hne⟩, htl⟩ := hb
      rw [Bool.not_eq_true'] at hnc
      rw [Bool.not_eq_true'] at hclean
      simp only [fmwcWalk]
      rw [if_neg (by rw [hnc]; exact Bool.false_ne_true)]
      simp only [of_decide_eq_true hfind]
      rw [if_neg (by rw [hclean]; exact Bool.false_ne_true)]
      rw [if_neg (fun hx => hx rfl), of_decide_eq_true hprev]
      rw [fmwcWalk_branch pw afst hcf rest j e2 0 ([] ++ [newId]) n
        htl (of_decide_eq_true hne)
        (by rw [List.length_cons] at hfu; omega)]
      rw [Nat.zero_add]


/-- C1 witness entries: genesis, the active tip above it, and a two-block
fork branch off genesis. -/
def egC1 : Entry := ⟨none, 0, 10, 1, 1, 1, true, false, false, 1⟩

/-- The active tip at height 1 (its time is the fork start time). -/
def eaC1 : Entry := ⟨some 0, 1, 100, 2, 3, 2, true, false, false, 1⟩

/-- The branch block at height 1. -/
def eb1C1 : Entry := ⟨some 0, 1, 130, 2, 3, 3, true, false, false, 1⟩

/-- The branch candidate at height 2. -/
def eb2C1 : Entry := ⟨some 2, 2, 260, 2, 5, 4, true, false, false, 1⟩

/-- The C1 witness state: chain `[0, 1]`, fork branch `2 ← 3`, candidate
`3`. -/
def stC1 : St :=
  ⟨[(0, egC1), (1, eaC1), (2, eb1C1), (3, eb2C1)], [3], [0, 1], []⟩

/-- C1: in `find_most_work_chain` (`FindMostWorkChain`), for a candidate
whose clean branch forks from the active chain at `f` (distinct from the
tip), with `activeForkStartTime` the time of the first active-chain block
after the fork point, each strict-ancestor branch block contributes its
work divided by `2^k`, `k = max(0, log2((block.time − activeForkStartTime)
/ penaltyWindow))` (the `Nat` subtraction, division and `log2` realize the
clamp); a synthetic parent carrying the penalized chain work is compared
against the tip, and if the penalized candidate does not outrank the tip it
is erased from the candidate set and the next-best candidate is
considered. -/
theorem findMostWorkChain_late_fork_penalty
    (pw wfuel fuel : Nat) (st : St) (newId tip f : Nat)
    (e0 : Entry) (tail : List (Nat × Entry))
    (hmax : maxCandidate st = some newId)
    (htip : tipOf st = some tip)
    (hnetip : newId ≠ tip)
    (hcf : containsId st f = true)
    (hfne : f ≠ tip)
    (hb : branchWalkOK st newId f ((newId, e0) :: tail) = true)
    (h0 : nextTime st f ≠ 0)
    (hfuel : tail.length + 2 < wfuel) :
    findMostWorkChain pw st wfuel (fuel + 1) =
      (if Cmp.cBlockIndexWorkComparator (view st tip)
          { view st newId with
            prevChainWork := some
              ((tail.map (fun p =>
                  p.2.work / 2 ^ Nat.log2 ((p.2.nTime - nextTime st f) / pw))).sum
                + chainWorkOf st f) } = true then
        some (st, some newId)
      else findMostWorkChain pw (eraseCandidate st newId) wfuel fuel) := by
  have hff : findFork st (some newId) wfuel = some (some f) :=
    findFork_branch hcf tail newId e0 wfuel hb (by omega)
  have hafst : fmwcAfst st (some f) (some tip) = nextTime st f := by
    simp only [fmwcAfst]
    rw [if_pos hfne]
  have hwk : fmwcWalk pw newId (fmwcAfst st (some f) (some tip)) st
      (some newId) 0 [] wfuel =
      some ⟨st, some (penSum pw (nextTime st f) tail, some f)⟩ := by
    rw [hafst]
    exact fmwcWalk_full pw (nextTime st f) hcf e0 tail wfuel hb hfuel
  have hfind0 : st.find newId = some e0 := by
    cases tail with
    | nil =>
      simp only [branchWalkOK, Bool.and_eq_true] at hb
      exact of_decide_eq_true hb.1.1.1
    | cons p2 rest =>
      obtain ⟨j, e2⟩ := p2
      simp only [branchWalkOK, Bool.and_eq_true] at hb
      exact of_decide_eq_true hb.1.1.1.1.1
  have hbind : ∃ q, (st.find newId).bind (fun e => e.prev) = some q := by
    cases tail with
    | nil =>
      simp only [branchWalkOK, Bool.and_eq_true] at hb
      refine ⟨f, ?_⟩
      rw [hfind0, Option.some_bind]
      exact of_decide_eq_true hb.2
    | cons p2 rest =>
      obtain ⟨j, e2⟩ := p2
      simp only [branchWalkOK, Bool.and_eq_true] at hb
      refine ⟨j, ?_⟩
      rw [hfind0, Option.some_bind]
      exact of_decide_eq_true hb.1.1.2
  obtain ⟨q, hbindq⟩ := hbind
  simp only [findMostWorkChain, hmax, hff, hwk, htip]
  rw [if_neg hnetip]
  simp only [hbindq]
  simp only [synthPrevWork]
  rw [penSum_formula pw (nextTime st f) h0 tail]

/-- C1 witness: the concrete fork scenario satisfies every hypothesis and
the characterization holds at it. -/
theorem findMostWorkChain_late_fork_penalty_witness :
    maxCandidate stC1 = some 3 ∧ tipOf stC1 = some 1 ∧ (3 : Nat) ≠ 1 ∧
      containsId stC1 0 = true ∧ (0 : Nat) ≠ 1 ∧
      branchWalkOK stC1 3 0 [(3, eb2C1), (2, eb1C1)] = true ∧
      nextTime stC1 0 ≠ 0 ∧ (1 : Nat) + 2 < 4 ∧
      findMostWorkChain 10 stC1 4 (0 + 1) =
        (if Cmp.cBlockIndexWorkComparator (view stC1 1)
            { view stC1 3 with
              prevChainWork := some
                (([(2, eb1C1)].map (fun p =>
                    p.2.work / 2 ^ Nat.log2 ((p.2.nTime - nextTime stC1 0) / 10))).sum
                  + chainWorkOf stC1 0) } = true then
          some (stC1, some 3)
        else findMostWorkChain 10 (eraseCandidate stC1 3) 4 0) :=
  ⟨by decide, by decide, by decide, by decide, by decide, by decide, by decide,
    by decide,
    findMostWorkChain_late_fork_penalty 10 4 0 stC1 3 1 0 eb2C1 [(2, eb1C1)]
      (by decide) (by decide) (by decide) (by decide) (by decide) (by decide)
      (by decide) (by decide)⟩

end Chain
